import Mathlib

/-!
Shallow embedding of `sseclient.py` (filigran_sseclient): the `Event`
value type with its `parse`/`dump` logic, and the `SSEClient` stream
reader state machine (buffering, boundary detection, reconnect
handling).  Text is modelled as `List Char`; the incremental byte
decoder is abstracted away (chunks arrive as already-decoded text,
which is exact for the claims considered here).
-/

abbrev Str := List Char

/-! ### Python `int()` on strings -/

def isDigit (c : Char) : Bool := '0' ≤ c && c ≤ '9'

def digitChar (k : Nat) : Char := Char.ofNat (48 + k)

/-- Decimal digits of a natural number, most significant first
(the digits of Python `str(n)`). -/
def natRepr (n : Nat) : Str :=
  if _h : n < 10 then [digitChar n]
  else natRepr (n / 10) ++ [digitChar (n % 10)]
decreasing_by exact Nat.div_lt_self (by omega) (by omega)

/-- Python `str` of an integer. -/
def intRepr (r : Int) : Str :=
  if r < 0 then '-' :: natRepr r.natAbs else natRepr r.natAbs

def digitsToNat (l : Str) : Nat :=
  l.foldl (fun a c => a * 10 + (c.toNat - 48)) 0

/-- Digit/underscore tail of a Python integer literal: after the first
digit, an underscore must be followed by a digit. -/
def digitsUnd : Str → Bool
  | [] => true
  | c :: rest =>
    if c = '_' then
      match rest with
      | [] => false
      | c2 :: rest2 => isDigit c2 && digitsUnd rest2
    else isDigit c && digitsUnd rest

/-- Unsigned decimal literal as accepted by Python `int`: nonempty,
starts with a digit, underscores only between digits. -/
def pyNatU : Str → Option Nat
  | [] => none
  | c :: rest =>
    if isDigit c && digitsUnd rest then
      some (digitsToNat ((c :: rest).filter (fun x => x != '_')))
    else none

def isWs (c : Char) : Bool :=
  c = ' ' || c = '\t' || c = '\n' || c = '\r' || c = '\x0b' || c = '\x0c'

def stripWs (l : Str) : Str :=
  ((l.dropWhile isWs).reverse.dropWhile isWs).reverse

/-- Model of Python `int(s)` on text: optional surrounding whitespace,
optional sign, decimal digits (underscores allowed between digits);
`none` models the `ValueError`. -/
def pyInt (l : Str) : Option Int :=
  match stripWs l with
  | [] => none
  | c :: r =>
    if c = '+' then (pyNatU r).map (fun n => (n : Int))
    else if c = '-' then (pyNatU r).map (fun n => -(n : Int))
    else (pyNatU (c :: r)).map (fun n => (n : Int))

/-! ### Splitting / joining text -/

/-- Python `s.split("\n")`. -/
def splitNl : Str → List Str
  | [] => [[]]
  | c :: rest =>
    if c = '\n' then [] :: splitNl rest
    else
      match splitNl rest with
      | [] => [[c]]
      | l :: ls => (c :: l) :: ls

/-- Python `"\n".join(ls)`. -/
def joinNl : List Str → Str
  | [] => []
  | [l] => l
  | l :: ls => l ++ '\n' :: joinNl ls

/-- `SPLIT_PATTERN.split(raw)`: split at every `\r\n`, `\n` or `\r`
(leftmost match, `\r\n` preferred over `\r` at the same position). -/
def splitAllNl : Str → List Str
  | [] => [[]]
  | '\r' :: '\n' :: rest => [] :: splitAllNl rest
  | '\r' :: rest => [] :: splitAllNl rest
  | '\n' :: rest => [] :: splitAllNl rest
  | c :: rest =>
    match splitAllNl rest with
    | [] => [[c]]
    | l :: ls => (c :: l) :: ls

/-! ### Event -/

structure Event where
  data : Str
  event : Str
  id : Option Str
  retry : Option Int
deriving DecidableEq, Repr

/-- `Event()` constructed with the Python default arguments. -/
def Event.default : Event := ⟨[], "message".data, none, none⟩

/-- The captures of `re.match` of `sse_line_pattern`
(`(?P<name>[^:]*):?( ?(?P<value>.*))?`) on a line: `name` is the
longest colon-free head, an optional colon and one optional space are
dropped, the rest is `value` (empty when the groups match emptily). -/
def Event.sseLineMatch (line : Str) : Str × Str :=
  let name := line.takeWhile (fun c => c != ':')
  match line.dropWhile (fun c => c != ':') with
  | ':' :: ' ' :: r => (name, r)
  | ':' :: r => (name, r)
  | _ => (name, [])

/-- One iteration of the `for line in cls.splitlines(raw)` loop body of
`Event.parse`; `.error` models the `ValueError` from `int(value)`. -/
def Event.processLine (msg : Event) (line : Str) : Except Str Event :=
  let name := (Event.sseLineMatch line).1
  let value := (Event.sseLineMatch line).2
  if name = [] then .ok msg
  else if name = "data".data then
    .ok { msg with data := if msg.data ≠ [] then msg.data ++ '\n' :: value else value }
  else if name = "event".data then .ok { msg with event := value }
  else if name = "id".data then .ok { msg with id := some value }
  else if name = "retry".data then
    match pyInt value with
    | some n => .ok { msg with retry := some n }
    | none => .error value
  else .ok msg

def Event.parseLines : Event → List Str → Except Str Event
  | msg, [] => .ok msg
  | msg, l :: ls =>
    match Event.processLine msg l with
    | .ok m => Event.parseLines m ls
    | .error e => .error e

/-- `Event.splitlines`: split on the newline conventions and drop empty
results. -/
def Event.splitlines (raw : Str) : List Str :=
  (splitAllNl raw).filter (fun l => l ≠ [])

/-- `Event.parse`. -/
def Event.parse (raw : Str) : Except Str Event :=
  Event.parseLines Event.default (Event.splitlines raw)

/-- The `lines` list built by `Event.dump` (Python truthiness on `id`
and `retry`). -/
def Event.dumpLines (e : Event) : List Str :=
  (match e.id with
   | some i => if i ≠ [] then ["id: ".data ++ i] else []
   | none => []) ++
  (if e.event ≠ "message".data then ["event: ".data ++ e.event] else []) ++
  (match e.retry with
   | some r => if r ≠ 0 then ["retry: ".data ++ intRepr r] else []
   | none => []) ++
  (splitNl e.data).map (fun d => "data: ".data ++ d)

/-- `Event.dump`. -/
def Event.dump (e : Event) : Str :=
  joinNl (Event.dumpLines e) ++ "\n\n".data

/-- Helper for reasoning about `joinNl`: `'\n'`-prefixed concatenation
of a list of lines. -/
def tailJoin : List Str → Str
  | [] => []
  | v :: vs => '\n' :: v ++ tailJoin vs

/-! ### SSEClient -/

/-- A boundary (`end_of_field` alternative) at the head of the text:
returns the matched separator and the remainder. -/
def startsBdry (l : Str) : Option (Str × Str) :=
  if l.take 4 = ['\r', '\n', '\r', '\n'] then some (['\r', '\n', '\r', '\n'], l.drop 4)
  else if l.take 2 = ['\r', '\r'] then some (['\r', '\r'], l.drop 2)
  else if l.take 2 = ['\n', '\n'] then some (['\n', '\n'], l.drop 2)
  else none

/-- `re.split(end_of_field, buf, maxsplit=1)` when a match exists:
split at the leftmost occurrence of `\r\n\r\n`, `\r\r` or `\n\n`;
`none` when `re.search(end_of_field, buf)` fails. -/
def splitBoundary : Str → Option (Str × Str)
  | [] => none
  | c :: rest =>
    match startsBdry (c :: rest) with
    | some (_, r) => some ([], r)
    | none => (splitBoundary rest).map (fun pq => (c :: pq.1, pq.2))

/-- `SSEClient._event_complete`. -/
def event_complete (buf : Str) : Bool := (splitBoundary buf).isSome

/-- The three alternatives of the `end_of_field` regular expression:
a doubled line terminator of a single convention. -/
def isBdry (sep : Str) : Prop :=
  sep = ['\r', '\n', '\r', '\n'] ∨ sep = ['\r', '\r'] ∨ sep = ['\n', '\n']

/-- A text using only the `\n` convention internally, with no blank
line: no carriage return and no two adjacent newlines. -/
def LfNoBlank (l : Str) : Prop :=
  (∀ c ∈ l, c ≠ '\r') ∧ List.Chain' (fun a b => ¬(a = '\n' ∧ b = '\n')) l

/-- A single complete message text in the `\n` convention: nonempty,
no internal blank line, and no leading or trailing newline. -/
def isMsgText (m : Str) : Prop :=
  m ≠ [] ∧ LfNoBlank m ∧ m.head? ≠ some '\n' ∧ m.getLast? ≠ some '\n'

/-- `head + sep` of Python `buf.rpartition("\n")`: everything up to and
including the last `\n`, or empty if there is none. -/
def trimNl : Str → Str
  | [] => []
  | c :: rest =>
    let t := trimNl rest
    if t = [] then (if c = '\n' then ['\n'] else []) else c :: t

/-- One interaction of the reader with its transport: a decoded text
chunk, or a raised transport error (`requests.RequestException`,
`IncompleteRead`, `StopIteration` of the chunk iterator). An empty
chunk is treated by the code as `EOFError`, i.e. as a failure. -/
inductive Step where
  | chunk (c : Str)
  | fail
deriving DecidableEq, Repr

/-- Observable side effects of `__next__`: the printed diagnostic, the
`time.sleep(self.retry / 1000.0)` (recorded in milliseconds), and the
`self._connect()` call. -/
inductive Act where
  | diag
  | slept (ms : Int)
  | reconnected
deriving DecidableEq, Repr

/-- Mutable state of `SSEClient` relevant to the framing loop. -/
structure SSEClient where
  buf : Str
  last_id : Option Str
  retry : Int
deriving DecidableEq, Repr

/-- The tail of `__next__` after a complete event was split off:
`self.retry` is overwritten only when `msg.retry` is truthy (set and
nonzero), `self.last_id` only when `msg.id` is truthy (set and
nonempty). -/
def SSEClient.handleMsg (s : SSEClient) (q : Str) (e : Event) : SSEClient :=
  { buf := q
    retry := match e.retry with
             | some r => if r ≠ 0 then r else s.retry
             | none => s.retry
    last_id := match e.id with
               | some i => if i ≠ [] then some i else s.last_id
               | none => s.last_id }

deriving instance DecidableEq for Except

/-- The tail of `__next__` once the buffer holds a boundary: split off
the first complete event text `p` (leaving `q` buffered) and parse it;
a parse error leaves `retry`/`last_id` untouched (the exception is
raised after `self.buf` was reassigned). -/
def SSEClient.emit (s : SSEClient) (p q : Str) (script : List Step) :
    Option (Except Str Event × SSEClient × List Step × List Act) :=
  match Event.parse p with
  | .ok e => some (.ok e, s.handleMsg q e, script, [])
  | .error err => some (.error err, { s with buf := q }, script, [])

/-- `SSEClient.__next__` driven by a finite script of transport
interactions: loop pulling chunks until the buffer holds a boundary
(failures trigger diagnostic, sleep, reconnect and the partial-line
trim), then split at the first boundary and parse.  Returns the parse
result (`.error` models the propagated `ValueError`), the new state,
the unconsumed script and the trace of side effects; `none` when the
script is exhausted with no complete event. -/
def SSEClient.next : SSEClient → List Step → Option (Except Str Event × SSEClient × List Step × List Act)
  | s, [] =>
    match splitBoundary s.buf with
    | some (p, q) => SSEClient.emit s p q []
    | none => none
  | s, step :: rest =>
    match splitBoundary s.buf with
    | some (p, q) => SSEClient.emit s p q (step :: rest)
    | none =>
      match step with
      | .chunk c =>
        if c = [] then
          match SSEClient.next { s with buf := trimNl s.buf } rest with
          | none => none
          | some (r, s1, sc1, acts) =>
            some (r, s1, sc1, .diag :: .slept s.retry :: .reconnected :: acts)
        else SSEClient.next { s with buf := s.buf ++ c } rest
      | .fail =>
        match SSEClient.next { s with buf := trimNl s.buf } rest with
        | none => none
        | some (r, s1, sc1, acts) =>
          some (r, s1, sc1, .diag :: .slept s.retry :: .reconnected :: acts)

/-- Pull up to `n` events, collecting the returned results. -/
def SSEClient.run : Nat → SSEClient → List Step → List (Except Str Event) × SSEClient × List Step
  | 0, s, sc => ([], s, sc)
  | n + 1, s, sc =>
    match SSEClient.next s sc with
    | none => ([], s, sc)
    | some (r, s1, sc1, _) =>
      match SSEClient.run n s1 sc1 with
      | (rs, s2, sc2) => (r :: rs, s2, sc2)

/-! ### A model of regular expression matching, for `sse_line_pattern` -/

/-- Regular expressions over characters, as used by `re.match`. -/
inductive Regex where
  | eps
  | char (p : Char → Bool)
  | seq (r1 r2 : Regex)
  | alt (r1 r2 : Regex)
  | star (r : Regex)

/-- `r?` — one or zero occurrences. -/
def Regex.opt (r : Regex) : Regex := .alt r .eps

/-- The language of a regular expression. -/
inductive RMatches : Regex → Str → Prop where
  | eps : RMatches .eps []
  | char {p : Char → Bool} {c : Char} : p c = true → RMatches (.char p) [c]
  | seq {r1 r2 : Regex} {s1 s2 : Str} :
      RMatches r1 s1 → RMatches r2 s2 → RMatches (.seq r1 r2) (s1 ++ s2)
  | altL {r1 r2 : Regex} {s : Str} : RMatches r1 s → RMatches (.alt r1 r2) s
  | altR {r1 r2 : Regex} {s : Str} : RMatches r2 s → RMatches (.alt r1 r2) s
  | starNil {r : Regex} : RMatches (.star r) []
  | starCons {r : Regex} {s1 s2 : Str} :
      RMatches r s1 → RMatches (.star r) s2 → RMatches (.star r) (s1 ++ s2)

/-- `Event.sse_line_pattern`, the regular expression
`(?P<name>[^:]*):?( ?(?P<value>.*))?`: the class `[^:]` matches any
character except a colon (newlines included), and `.` matches any
character except `\n`.  `re.match` succeeds exactly when some prefix
of the line is in the language. -/
def Event.sse_line_pattern : Regex :=
  .seq (.star (.char (fun c => c != ':')))
    (.seq (Regex.opt (.char (fun c => c == ':')))
      (Regex.opt (.seq (Regex.opt (.char (fun c => c == ' ')))
        (.star (.char (fun c => c != '\n'))))))

/-! ### Concrete counterexamples and computations -/

/-- C1 counterexample: the round-trip law fails as stated.  For the
valid Event with `data = "x"` and `retry = 0` (a non-negative integer),
`dump` omits the `retry:` line (Python truthiness), so `parse ∘ dump`
returns an Event whose `retry` is unset rather than `0`. -/
theorem c1_cex :
    Event.parse (Event.dump ⟨"x".data, "message".data, none, some 0⟩) =
      .ok ⟨"x".data, "message".data, none, none⟩ ∧
    (Event.mk "x".data "message".data none none) ≠
      (Event.mk "x".data "message".data none (some 0)) := by
  decide

/-- C2 counterexample: the sticky-update rule is not "overwrite iff the
message carries the field".  The message `"retry: 0\n\n"` carries a
`retry` field (parsed as `some 0`), yet the reader's interval stays at
its initial `3000`. -/
theorem c2_cex :
    SSEClient.next ⟨[], none, 3000⟩ [.chunk "retry: 0\n\n".data] =
      some (.ok ⟨[], "message".data, none, some 0⟩, ⟨[], none, 3000⟩, [], []) ∧
    (3000 : Int) ≠ 0 := by
  decide

/-- C5 counterexample: with empty `data` and no `id`/`event`/`retry`
set, `dump` still emits one `data: ` line (Python `"".split("\n")` is
`[""]`), not "no line at all". -/
theorem c5_cex :
    Event.dumpLines ⟨[], "message".data, none, none⟩ = ["data: ".data] ∧
    Event.dumpLines ⟨[], "message".data, none, none⟩ ≠ [] ∧
    Event.dump ⟨[], "message".data, none, none⟩ = "data: \n\n".data := by
  decide

/-- C9 counterexample: `parse` can produce a negative `retry` value,
since Python `int` accepts a leading minus sign. -/
theorem c9_cex :
    Event.parse "retry: -5".data = .ok ⟨[], "message".data, none, some (-5)⟩ ∧
    ((-5 : Int) < 0) := by
  decide

/-- C8: newline-convention independence within a message — parsing
`"event: hello" + eol + "data: eol" + eol` yields the same Event for
every `eol` among `\r\n`, `\r`, `\n`. -/
theorem c8_newline_independence :
    Event.parse ("event: hello".data ++ "\r\n".data ++ "data: eol".data ++ "\r\n".data) =
      .ok ⟨"eol".data, "hello".data, none, none⟩ ∧
    Event.parse ("event: hello".data ++ "\r".data ++ "data: eol".data ++ "\r".data) =
      .ok ⟨"eol".data, "hello".data, none, none⟩ ∧
    Event.parse ("event: hello".data ++ "\n".data ++ "data: eol".data ++ "\n".data) =
      .ok ⟨"eol".data, "hello".data, none, none⟩ := by
  decide

/-! ### Lemmas: decimal representation round-trip -/

lemma digitChar_toNat {k : Nat} (h : k < 10) : (digitChar k).toNat = 48 + k := by
  interval_cases k <;> decide

lemma isDigit_digitChar {k : Nat} (h : k < 10) : isDigit (digitChar k) = true := by
  interval_cases k <;> decide

lemma natRepr_all_digits (n : Nat) : ∀ c ∈ natRepr n, isDigit c = true := by
  induction n using Nat.strong_induction_on with
  | _ n ih =>
    rw [natRepr]
    split
    · intro c hc
      simp only [List.mem_singleton] at hc
      subst hc
      exact isDigit_digitChar (by omega)
    · intro c hc
      rw [List.mem_append] at hc
      rcases hc with hc | hc
      · exact ih (n / 10) (Nat.div_lt_self (by omega) (by omega)) c hc
      · simp only [List.mem_singleton] at hc
        subst hc
        exact isDigit_digitChar (Nat.mod_lt _ (by omega))

lemma natRepr_ne_nil (n : Nat) : natRepr n ≠ [] := by
  rw [natRepr]
  split
  · simp
  · simp

lemma digitsToNat_append (l : Str) (c : Char) :
    digitsToNat (l ++ [c]) = digitsToNat l * 10 + (c.toNat - 48) := by
  simp [digitsToNat, List.foldl_append]

lemma digitsToNat_natRepr (n : Nat) : digitsToNat (natRepr n) = n := by
  induction n using Nat.strong_induction_on with
  | _ n ih =>
    rw [natRepr]
    split
    · next h =>
      simp [digitsToNat, digitChar_toNat h]
    · next h =>
      rw [digitsToNat_append, ih (n / 10) (Nat.div_lt_self (by omega) (by omega)),
        digitChar_toNat (Nat.mod_lt _ (by omega))]
      omega

lemma isDigit_facts {c : Char} (h : isDigit c = true) :
    c ≠ ':' ∧ c ≠ '\n' ∧ c ≠ '\r' ∧ c ≠ '_' ∧ c ≠ '+' ∧ c ≠ '-' ∧ isWs c = false := by
  refine ⟨?_, ?_, ?_, ?_, ?_, ?_, ?_⟩
  · intro hc; subst hc; simp [isDigit] at h
  · intro hc; subst hc; simp [isDigit] at h
  · intro hc; subst hc; simp [isDigit] at h
  · intro hc; subst hc; simp [isDigit] at h
  · intro hc; subst hc; simp [isDigit] at h
  · intro hc; subst hc; simp [isDigit] at h
  · by_cases hws : isWs c = true
    · simp only [isWs, Bool.or_eq_true, decide_eq_true_eq] at hws
      rcases hws with ((((hc | hc) | hc) | hc) | hc) | hc <;> subst hc <;>
        simp [isDigit] at h
    · simpa using hws

lemma digitsUnd_digits {l : Str} (h : ∀ c ∈ l, isDigit c = true) : digitsUnd l = true := by
  induction l with
  | nil => rfl
  | cons c rest ih =>
    have hc := h c (by simp)
    rw [digitsUnd.eq_def]
    simp only []
    rw [if_neg (isDigit_facts hc).2.2.2.1]
    simp only [hc, Bool.true_and]
    exact ih (fun x hx => h x (by simp [hx]))

lemma filter_no_underscore {l : Str} (h : ∀ c ∈ l, isDigit c = true) :
    l.filter (fun x => x != '_') = l := by
  apply List.filter_eq_self.2
  intro c hc
  simpa using (isDigit_facts (h c hc)).2.2.2.1

lemma pyNatU_natRepr (n : Nat) : pyNatU (natRepr n) = some n := by
  have hd := natRepr_all_digits n
  rcases hn : natRepr n with _ | ⟨c, rest⟩
  · exact absurd hn (natRepr_ne_nil n)
  · rw [pyNatU]
    have hc : isDigit c = true := hd c (by rw [hn]; simp)
    have hrest : digitsUnd rest = true :=
      digitsUnd_digits (fun x hx => hd x (by rw [hn]; simp [hx]))
    rw [if_pos (by simp [hc, hrest])]
    rw [← hn, filter_no_underscore hd, digitsToNat_natRepr]

lemma dropWhile_no {p : Char → Bool} {l : Str} (h : ∀ c ∈ l, p c = false) :
    l.dropWhile p = l := by
  cases l with
  | nil => rfl
  | cons c rest => rw [List.dropWhile_cons, h c (by simp)]; simp

lemma stripWs_noWs {l : Str} (h : ∀ c ∈ l, isWs c = false) : stripWs l = l := by
  unfold stripWs
  rw [dropWhile_no h, dropWhile_no (fun c hc => h c (List.mem_reverse.1 hc)),
    List.reverse_reverse]

lemma pyInt_digits {l : Str} (hd : ∀ c ∈ l, isDigit c = true) (hne : l ≠ []) :
    pyInt l = (pyNatU l).map (fun n => (n : Int)) := by
  rw [pyInt, stripWs_noWs (fun c hc => (isDigit_facts (hd c hc)).2.2.2.2.2.2)]
  rcases l with _ | ⟨c, rest⟩
  · exact absurd rfl hne
  · have hc : isDigit c = true := hd c (by simp)
    simp only []
    rw [if_neg (by simpa using (isDigit_facts hc).2.2.2.2.1),
      if_neg (by simpa using (isDigit_facts hc).2.2.2.2.2.1)]

lemma pyInt_neg_digits {l : Str} (hd : ∀ c ∈ l, isDigit c = true) :
    pyInt ('-' :: l) = (pyNatU l).map (fun n => -(n : Int)) := by
  rw [pyInt, stripWs_noWs ?_]
  · simp only []
    rw [if_neg (by decide)]
    simp
  · intro c hc
    simp only [List.mem_cons] at hc
    rcases hc with rfl | hc
    · decide
    · exact (isDigit_facts (hd c hc)).2.2.2.2.2.2

lemma pyInt_intRepr (r : Int) : pyInt (intRepr r) = some r := by
  unfold intRepr
  split
  · next hneg =>
    rw [pyInt_neg_digits (natRepr_all_digits r.natAbs), pyNatU_natRepr]
    have hr : -((r.natAbs : Nat) : Int) = r := by omega
    have habs : -|r| = r := by rw [abs_of_nonpos (le_of_lt hneg)]; ring
    simp [hr, habs]
  · next hneg =>
    rw [pyInt_digits (natRepr_all_digits r.natAbs) (natRepr_ne_nil _), pyNatU_natRepr]
    have hr : ((r.natAbs : Nat) : Int) = r := by omega
    simp [hr]

/-! ### Lemmas: newline splitting -/

lemma splitAllNl_ne_nil (l : Str) : splitAllNl l ≠ [] := by
  rw [splitAllNl.eq_def]
  split <;> simp_all
  split <;> simp

lemma splitAllNl_cons_other {c : Char} (rest : Str) (h1 : c ≠ '\r') (h2 : c ≠ '\n') :
    splitAllNl (c :: rest) =
      match splitAllNl rest with
      | [] => [[c]]
      | p :: ps => (c :: p) :: ps := by
  rw [splitAllNl.eq_def]
  split
  · simp_all
  · next heq => injection heq with hc _; exact absurd hc h1
  · next heq => injection heq with hc _; exact absurd hc h1
  · next heq => injection heq with hc _; exact absurd hc h2
  · next heq => injection heq with hc hr; rw [hc, hr]

lemma splitAllNl_nl (x : Str) : splitAllNl ('\n' :: x) = [] :: splitAllNl x := by
  rw [splitAllNl.eq_def]
  split
  · simp_all
  · next heq => injection heq with hc _; exact absurd hc.symm (by decide)
  · next heq => injection heq with hc _; exact absurd hc.symm (by decide)
  · next heq => injection heq with _ hr; rw [hr]
  · next h1 h2 heq =>
    injection heq with hc hr
    exact absurd hc.symm h2

lemma splitAllNl_cr {rest : Str} (h : ∀ r2 : Str, rest = '\n' :: r2 → False) :
    splitAllNl ('\r' :: rest) = [] :: splitAllNl rest := by
  rw [splitAllNl.eq_def]
  split
  · next heq => exact absurd heq (by simp)
  · next heq => injection heq with _ h2; exact absurd h2 (fun h3 => h _ h3)
  · next heq => injection heq with _ h2; rw [h2]
  · next heq => injection heq with hc _; exact absurd hc (by decide)
  · next hA hB hC heq =>
    injection heq with hc _
    exact absurd hc.symm (fun hh => hB hh)

lemma mem_splitAllNl {l : Str} : ∀ p ∈ splitAllNl l, ∀ c ∈ p, c ∈ l ∧ c ≠ '\n' ∧ c ≠ '\r' := by
  induction l using splitAllNl.induct with
  | case1 =>
    intro p hp
    simp only [splitAllNl, List.mem_singleton] at hp
    simp [hp]
  | case2 rest ih =>
    intro p hp c hc
    rw [show splitAllNl ('\r' :: '\n' :: rest) = [] :: splitAllNl rest from rfl] at hp
    rcases List.mem_cons.1 hp with rfl | hp
    · simp at hc
    · have := ih p hp c hc
      exact ⟨by simp [this.1], this.2⟩
  | case3 rest hne ih =>
    intro p hp c hc
    rw [splitAllNl_cr hne] at hp
    rcases List.mem_cons.1 hp with rfl | hp
    · simp at hc
    · have := ih p hp c hc
      exact ⟨by simp [this.1], this.2⟩
  | case4 rest ih =>
    intro p hp c hc
    rw [splitAllNl_nl] at hp
    rcases List.mem_cons.1 hp with rfl | hp
    · simp at hc
    · have := ih p hp c hc
      exact ⟨by simp [this.1], this.2⟩
  | case5 c0 rest h1 h2 h3 hnil ih =>
    intro p hp c hc
    rw [splitAllNl_cons_other rest (fun h => h2 h) (fun h => h3 h), hnil] at hp
    simp only [List.mem_singleton] at hp
    subst hp
    simp only [List.mem_singleton] at hc
    subst hc
    exact ⟨by simp, fun h => h3 h, fun h => h2 h⟩
  | case6 c0 rest h1 h2 h3 l ls hcons ih =>
    intro p hp c hc
    rw [splitAllNl_cons_other rest (fun h => h2 h) (fun h => h3 h), hcons] at hp
    rcases List.mem_cons.1 hp with rfl | hp
    · rcases List.mem_cons.1 hc with rfl | hc
      · exact ⟨by simp, fun h => h3 h, fun h => h2 h⟩
      · have := ih l (by rw [hcons]; simp) c hc
        exact ⟨by simp [this.1], this.2⟩
    · have := ih p (by rw [hcons]; simp [hp]) c hc
      exact ⟨by simp [this.1], this.2⟩

lemma splitAllNl_append_noNl {l : Str} (hl : ∀ c ∈ l, c ≠ '\n' ∧ c ≠ '\r') :
    ∀ {x p : Str} {ps : List Str}, splitAllNl x = p :: ps →
      splitAllNl (l ++ x) = (l ++ p) :: ps := by
  induction l with
  | nil => intro x p ps hx; simpa using hx
  | cons c l2 ih =>
    intro x p ps hx
    have hc := hl c (by simp)
    rw [List.cons_append, splitAllNl_cons_other _ hc.2 hc.1,
      ih (fun a ha => hl a (by simp [ha])) hx]
    rfl

lemma splitAllNl_join {ls : List Str} (h : ∀ l ∈ ls, ∀ c ∈ l, c ≠ '\n' ∧ c ≠ '\r') (hne : ls ≠ []) :
    splitAllNl (joinNl ls ++ ['\n', '\n']) = ls ++ [[], []] := by
  induction ls with
  | nil => exact absurd rfl hne
  | cons l ls2 ih =>
    rcases ls2 with _ | ⟨l2, ls3⟩
    · rw [show joinNl [l] = l from rfl]
      rw [splitAllNl_append_noNl (h l (by simp)) (show splitAllNl ['\n', '\n'] = [] :: [[], []] from rfl)]
      simp
    · rw [show joinNl (l :: l2 :: ls3) = l ++ '\n' :: joinNl (l2 :: ls3) from rfl]
      have hrec := ih (fun a ha => h a (by simp [List.mem_cons.1 ha])) (by simp)
      have hx : splitAllNl ('\n' :: (joinNl (l2 :: ls3) ++ ['\n', '\n'])) =
          [] :: ((l2 :: ls3) ++ [[], []]) := by
        rw [splitAllNl_nl, hrec]
      rw [List.append_assoc, List.cons_append,
        splitAllNl_append_noNl (h l (by simp)) hx]
      simp

lemma splitlines_join {ls : List Str} (h : ∀ l ∈ ls, ∀ c ∈ l, c ≠ '\n' ∧ c ≠ '\r')
    (hne : ls ≠ []) (hnil : ∀ l ∈ ls, l ≠ []) :
    Event.splitlines (joinNl ls ++ ['\n', '\n']) = ls := by
  unfold Event.splitlines
  rw [splitAllNl_join h hne, List.filter_append]
  rw [List.filter_eq_self.2 (by intro a ha; simpa using hnil a ha)]
  simp

/-! ### Lemmas: lf-only splitting and joining -/

lemma splitNl_ne_nil (d : Str) : splitNl d ≠ [] := by
  rw [splitNl.eq_def]
  split
  · simp
  · split
    · simp
    · split <;> simp

lemma splitNl_cons_other {c : Char} (rest : Str) (h : c ≠ '\n') :
    splitNl (c :: rest) =
      match splitNl rest with
      | [] => [[c]]
      | p :: ps => (c :: p) :: ps := by
  rw [splitNl.eq_def]
  simp [h]

lemma joinNl_cons_of_ne (l : Str) {ls : List Str} (h : ls ≠ []) :
    joinNl (l :: ls) = l ++ '\n' :: joinNl ls := by
  cases ls with
  | nil => exact absurd rfl h
  | cons l2 ls2 => rfl

lemma mem_splitNl {d : Str} : ∀ p ∈ splitNl d, ∀ c ∈ p, c ∈ d ∧ c ≠ '\n' := by
  induction d with
  | nil =>
    intro p hp c hc
    simp only [splitNl, List.mem_singleton] at hp
    subst hp
    simp at hc
  | cons c0 rest ih =>
    intro p hp c hc
    by_cases h0 : c0 = '\n'
    · subst h0
      rw [show splitNl ('\n' :: rest) = [] :: splitNl rest from rfl] at hp
      rcases List.mem_cons.1 hp with rfl | hp
      · simp at hc
      · have := ih p hp c hc
        exact ⟨by simp [this.1], this.2⟩
    · rw [splitNl_cons_other rest h0] at hp
      rcases hsp : splitNl rest with _ | ⟨q, qs⟩
      · exact absurd hsp (splitNl_ne_nil rest)
      · rw [hsp] at hp
        rcases List.mem_cons.1 hp with rfl | hp
        · rcases List.mem_cons.1 hc with rfl | hc
          · exact ⟨by simp, h0⟩
          · have := ih q (by rw [hsp]; simp) c hc
            exact ⟨by simp [this.1], this.2⟩
        · have := ih p (by rw [hsp]; simp [hp]) c hc
          exact ⟨by simp [this.1], this.2⟩

lemma joinNl_splitNl (d : Str) : joinNl (splitNl d) = d := by
  induction d with
  | nil => rfl
  | cons c0 rest ih =>
    by_cases h0 : c0 = '\n'
    · subst h0
      rw [show splitNl ('\n' :: rest) = [] :: splitNl rest from rfl,
        joinNl_cons_of_ne _ (splitNl_ne_nil rest), ih]
      rfl
    · rw [splitNl_cons_other rest h0]
      rcases hsp : splitNl rest with _ | ⟨q, qs⟩
      · exact absurd hsp (splitNl_ne_nil rest)
      · rcases qs with _ | ⟨q2, qs2⟩
        · rw [show joinNl [c0 :: q] = c0 :: q from rfl]
          rw [hsp] at ih
          rw [show joinNl [q] = q from rfl] at ih
          rw [ih]
        · rw [joinNl_cons_of_ne _ (by simp)]
          rw [hsp] at ih
          rw [joinNl_cons_of_ne _ (by simp)] at ih
          rw [List.cons_append, ih]

lemma joinNl_eq_tailJoin (l : Str) (ls : List Str) :
    joinNl (l :: ls) = l ++ tailJoin ls := by
  induction ls generalizing l with
  | nil => simp [joinNl, tailJoin]
  | cons l2 ls2 ih =>
    rw [joinNl_cons_of_ne _ (by simp), ih l2]
    rw [show tailJoin (l2 :: ls2) = '\n' :: l2 ++ tailJoin ls2 from rfl]
    simp

lemma foldl_pyData_acc (ps : List Str) :
    ∀ acc : Str, acc ≠ [] →
      ps.foldl (fun a v => if a ≠ [] then a ++ '\n' :: v else v) acc = acc ++ tailJoin ps := by
  induction ps with
  | nil => intro acc hacc; simp [tailJoin]
  | cons v vs ih =>
    intro acc hacc
    rw [List.foldl_cons, if_pos hacc, ih (acc ++ '\n' :: v) (by simp)]
    rw [show tailJoin (v :: vs) = '\n' :: v ++ tailJoin vs from rfl]
    simp

lemma foldl_pyData_splitNl {d : Str} (h : d.head? ≠ some '\n') :
    (splitNl d).foldl (fun a v => if a ≠ [] then a ++ '\n' :: v else v) [] = d := by
  cases d with
  | nil => rfl
  | cons c0 rest =>
    have h0 : c0 ≠ '\n' := by simpa using h
    rw [splitNl_cons_other rest h0]
    rcases hsp : splitNl rest with _ | ⟨q, qs⟩
    · exact absurd hsp (splitNl_ne_nil rest)
    · rw [List.foldl_cons]
      rw [show (if ([] : Str) ≠ [] then [] ++ '\n' :: (c0 :: q) else (c0 :: q)) = c0 :: q from rfl]
      rw [foldl_pyData_acc qs (c0 :: q) (by simp)]
      have : joinNl (splitNl rest) = rest := joinNl_splitNl rest
      rw [hsp, joinNl_eq_tailJoin] at this
      rw [List.cons_append, this]

/-! ### Lemmas: the line pattern on well-formed field lines -/

lemma takeWhile_append_of {p : Char → Bool} {l1 : Str} (h : ∀ c ∈ l1, p c = true)
    {c0 : Char} (hc0 : p c0 = false) (l2 : Str) :
    (l1 ++ c0 :: l2).takeWhile p = l1 := by
  induction l1 with
  | nil => simp [List.takeWhile_cons, hc0]
  | cons c l ih =>
    rw [List.cons_append, List.takeWhile_cons, h c (by simp)]
    rw [ih (fun a ha => h a (by simp [ha]))]
    simp

lemma dropWhile_append_of {p : Char → Bool} {l1 : Str} (h : ∀ c ∈ l1, p c = true)
    {c0 : Char} (hc0 : p c0 = false) (l2 : Str) :
    (l1 ++ c0 :: l2).dropWhile p = c0 :: l2 := by
  induction l1 with
  | nil => simp [List.dropWhile_cons, hc0]
  | cons c l ih =>
    rw [List.cons_append, List.dropWhile_cons, h c (by simp)]
    exact ih (fun a ha => h a (by simp [ha]))

lemma sseLineMatch_tag (tag v : Str) (htag : ∀ c ∈ tag, c ≠ ':') :
    Event.sseLineMatch (tag ++ ':' :: ' ' :: v) = (tag, v) := by
  unfold Event.sseLineMatch
  have hb : ∀ c ∈ tag, (c != ':') = true := fun c hc => by simpa using htag c hc
  rw [takeWhile_append_of hb (by decide) (' ' :: v),
    dropWhile_append_of hb (by decide) (' ' :: v)]
  rfl

/-! ### Lemmas: processing single lines -/

lemma processLine_data (msg : Event) (v : Str) :
    Event.processLine msg ("data: ".data ++ v) =
      .ok { msg with data := if msg.data ≠ [] then msg.data ++ '\n' :: v else v } := by
  unfold Event.processLine
  rw [show ("data: ".data ++ v) = ("data".data ++ ':' :: ' ' :: v) from rfl]
  rw [sseLineMatch_tag _ v (by decide)]
  simp

lemma processLine_event (msg : Event) (v : Str) :
    Event.processLine msg ("event: ".data ++ v) = .ok { msg with event := v } := by
  unfold Event.processLine
  rw [show ("event: ".data ++ v) = ("event".data ++ ':' :: ' ' :: v) from rfl]
  rw [sseLineMatch_tag _ v (by decide)]
  simp

lemma processLine_id (msg : Event) (v : Str) :
    Event.processLine msg ("id: ".data ++ v) = .ok { msg with id := some v } := by
  unfold Event.processLine
  rw [show ("id: ".data ++ v) = ("id".data ++ ':' :: ' ' :: v) from rfl]
  rw [sseLineMatch_tag _ v (by decide)]
  simp

lemma processLine_retry (msg : Event) (v : Str) :
    Event.processLine msg ("retry: ".data ++ v) =
      match pyInt v with
      | some n => .ok { msg with retry := some n }
      | none => .error v := by
  unfold Event.processLine
  rw [show ("retry: ".data ++ v) = ("retry".data ++ ':' :: ' ' :: v) from rfl]
  rw [sseLineMatch_tag _ v (by decide)]
  simp

lemma parseLines_append (msg : Event) (ls1 ls2 : List Str) :
    Event.parseLines msg (ls1 ++ ls2) =
      match Event.parseLines msg ls1 with
      | .ok m => Event.parseLines m ls2
      | .error e => .error e := by
  induction ls1 generalizing msg with
  | nil => simp [Event.parseLines]
  | cons l ls ih =>
    rw [List.cons_append]
    rw [show Event.parseLines msg (l :: (ls ++ ls2)) =
      match Event.processLine msg l with
      | .ok m => Event.parseLines m (ls ++ ls2)
      | .error e => .error e from rfl]
    rw [show Event.parseLines msg (l :: ls) =
      match Event.processLine msg l with
      | .ok m => Event.parseLines m ls
      | .error e => .error e from rfl]
    cases Event.processLine msg l with
    | ok m => simp [ih m]
    | error e => simp

lemma parseLines_dataLines (msg : Event) (ps : List Str) :
    Event.parseLines msg (ps.map (fun v => "data: ".data ++ v)) =
      .ok { msg with
            data := ps.foldl (fun a v => if a ≠ [] then a ++ '\n' :: v else v) msg.data } := by
  induction ps generalizing msg with
  | nil => simp [Event.parseLines]
  | cons v vs ih =>
    rw [List.map_cons]
    rw [show Event.parseLines msg (("data: ".data ++ v) :: vs.map (fun v => "data: ".data ++ v)) =
      match Event.processLine msg ("data: ".data ++ v) with
      | .ok m => Event.parseLines m (vs.map (fun v => "data: ".data ++ v))
      | .error e => .error e from rfl]
    rw [processLine_data]
    simp only []
    rw [ih]
    rw [List.foldl_cons]

/-! ### The amended round-trip law -/

lemma parseLines_cons (msg : Event) (l : Str) (ls : List Str) :
    Event.parseLines msg (l :: ls) =
      match Event.processLine msg l with
      | .ok m => Event.parseLines m ls
      | .error e => .error e := rfl

lemma intRepr_noNl (r : Int) : ∀ c ∈ intRepr r, c ≠ '\n' ∧ c ≠ '\r' := by
  intro c hc
  unfold intRepr at hc
  have hdig : ∀ c2 ∈ natRepr r.natAbs, isDigit c2 = true := natRepr_all_digits r.natAbs
  split at hc
  · rcases List.mem_cons.1 hc with rfl | hc
    · exact ⟨by decide, by decide⟩
    · have := isDigit_facts (hdig c hc)
      exact ⟨this.2.1, this.2.2.1⟩
  · have := isDigit_facts (hdig c hc)
    exact ⟨this.2.1, this.2.2.1⟩

lemma mem_dumpLines {e : Event} {l : Str} (hl : l ∈ Event.dumpLines e) :
    (∃ i, e.id = some i ∧ l = "id: ".data ++ i) ∨
    (l = "event: ".data ++ e.event) ∨
    (∃ r, e.retry = some r ∧ l = "retry: ".data ++ intRepr r) ∨
    (∃ p, p ∈ splitNl e.data ∧ l = "data: ".data ++ p) := by
  unfold Event.dumpLines at hl
  rcases List.mem_append.1 hl with hl1 | hl2
  · rcases List.mem_append.1 hl1 with hl3 | hl4
    · rcases List.mem_append.1 hl3 with hl5 | hl6
      · left
        rcases hi : e.id with _ | i
        · rw [hi] at hl5; simp at hl5
        · rw [hi] at hl5
          by_cases hne : i = []
          · simp [hne] at hl5
          · simp [hne] at hl5
            exact ⟨i, rfl, hl5⟩
      · right; left
        by_cases hne : e.event ≠ "message".data
        · rw [if_pos hne] at hl6
          simpa using hl6
        · rw [if_neg hne] at hl6; simp at hl6
    · right; right; left
      rcases hr : e.retry with _ | r
      · rw [hr] at hl4; simp at hl4
      · rw [hr] at hl4
        by_cases hne : r = 0
        · simp [hne] at hl4
        · simp [hne] at hl4
          exact ⟨r, rfl, hl4⟩
  · right; right; right
    rcases List.mem_map.1 hl2 with ⟨p, hp, hpl⟩
    exact ⟨p, hp, hpl.symm⟩

lemma foldl_pyData_splitNl2 {d : Str} (h : d.head? ≠ some '\n') :
    (splitNl d).foldl (fun a v => if a = [] then v else a ++ '\n' :: v) [] = d := by
  have hfun : (fun (a : Str) (v : Str) => if a = [] then v else a ++ '\n' :: v) =
      (fun (a : Str) (v : Str) => if a ≠ [] then a ++ '\n' :: v else v) := by
    funext a v
    by_cases ha : a = [] <;> simp [ha]
  rw [hfun]
  exact foldl_pyData_splitNl h

/-- C1, amended: the round-trip law holds for Events whose `data` has
no carriage return and no leading newline, whose `event` and `id` are
single-line texts, whose `id` (when set) is nonempty, and whose `retry`
(when set) is nonzero. -/
theorem c1_round_trip (d ev : Str) (oid : Option Str) (ort : Option Int)
    (hd1 : ∀ c ∈ d, c ≠ '\r') (hd2 : d.head? ≠ some '\n')
    (hev : ∀ c ∈ ev, c ≠ '\n' ∧ c ≠ '\r')
    (hid : ∀ i ∈ oid, i ≠ [] ∧ ∀ c ∈ i, c ≠ '\n' ∧ c ≠ '\r')
    (hrt : ∀ r ∈ ort, r ≠ 0) :
    Event.parse (Event.dump ⟨d, ev, oid, ort⟩) = .ok ⟨d, ev, oid, ort⟩ := by
  have hlines : Event.splitlines (Event.dump ⟨d, ev, oid, ort⟩) =
      Event.dumpLines ⟨d, ev, oid, ort⟩ := by
    rw [show Event.dump ⟨d, ev, oid, ort⟩ =
      joinNl (Event.dumpLines ⟨d, ev, oid, ort⟩) ++ ['\n', '\n'] from rfl]
    apply splitlines_join
    · intro l hl c hc
      rcases mem_dumpLines hl with ⟨i, hi, rfl⟩ | rfl | ⟨r, hr, rfl⟩ | ⟨p, hp, rfl⟩
      · rcases List.mem_append.1 hc with hc | hc
        · fin_cases hc <;> exact ⟨by decide, by decide⟩
        · exact (hid i hi).2 c hc
      · rcases List.mem_append.1 hc with hc | hc
        · fin_cases hc <;> exact ⟨by decide, by decide⟩
        · exact hev c hc
      · rcases List.mem_append.1 hc with hc | hc
        · fin_cases hc <;> exact ⟨by decide, by decide⟩
        · exact intRepr_noNl r c hc
      · rcases List.mem_append.1 hc with hc | hc
        · fin_cases hc <;> exact ⟨by decide, by decide⟩
        · have := mem_splitNl p hp c hc
          exact ⟨this.2, hd1 c this.1⟩
    · have hmap : (splitNl d).map (fun p => "data: ".data ++ p) ≠ [] := by
        have := splitNl_ne_nil d
        simpa using this
      unfold Event.dumpLines
      simp only [ne_eq, List.append_eq_nil]
      tauto
    · intro l hl
      rcases mem_dumpLines hl with ⟨i, _, rfl⟩ | rfl | ⟨r, _, rfl⟩ | ⟨p, _, rfl⟩ <;> simp
  unfold Event.parse
  rw [hlines]
  rcases oid with _ | i <;> rcases ort with _ | r <;> by_cases hevc : ev = "message".data
  · subst hevc
    rw [show Event.dumpLines ⟨d, "message".data, none, none⟩ =
      (splitNl d).map (fun p => "data: ".data ++ p) by unfold Event.dumpLines; simp]
    rw [parseLines_dataLines]
    simp [Event.default, foldl_pyData_splitNl2 hd2]
  · rw [show Event.dumpLines ⟨d, ev, none, none⟩ =
      ("event: ".data ++ ev) :: (splitNl d).map (fun p => "data: ".data ++ p) by
        unfold Event.dumpLines; simp [hevc]]
    rw [parseLines_cons, processLine_event]
    simp only []
    rw [parseLines_dataLines]
    simp [Event.default, foldl_pyData_splitNl2 hd2]
  · subst hevc
    have hrne : r ≠ 0 := hrt r (by simp)
    rw [show Event.dumpLines ⟨d, "message".data, none, some r⟩ =
      ("retry: ".data ++ intRepr r) :: (splitNl d).map (fun p => "data: ".data ++ p) by
        unfold Event.dumpLines; simp [hrne]]
    rw [parseLines_cons, processLine_retry, pyInt_intRepr]
    simp only []
    rw [parseLines_dataLines]
    simp [Event.default, foldl_pyData_splitNl2 hd2]
  · have hrne : r ≠ 0 := hrt r (by simp)
    rw [show Event.dumpLines ⟨d, ev, none, some r⟩ =
      ("event: ".data ++ ev) :: ("retry: ".data ++ intRepr r) ::
        (splitNl d).map (fun p => "data: ".data ++ p) by
        unfold Event.dumpLines; simp [hevc, hrne]]
    rw [parseLines_cons, processLine_event]
    simp only []
    rw [parseLines_cons, processLine_retry, pyInt_intRepr]
    simp only []
    rw [parseLines_dataLines]
    simp [Event.default, foldl_pyData_splitNl2 hd2]
  · subst hevc
    have hine : i ≠ [] := (hid i (by simp)).1
    rw [show Event.dumpLines ⟨d, "message".data, some i, none⟩ =
      ("id: ".data ++ i) :: (splitNl d).map (fun p => "data: ".data ++ p) by
        unfold Event.dumpLines; simp [hine]]
    rw [parseLines_cons, processLine_id]
    simp only []
    rw [parseLines_dataLines]
    simp [Event.default, foldl_pyData_splitNl2 hd2]
  · have hine : i ≠ [] := (hid i (by simp)).1
    rw [show Event.dumpLines ⟨d, ev, some i, none⟩ =
      ("id: ".data ++ i) :: ("event: ".data ++ ev) ::
        (splitNl d).map (fun p => "data: ".data ++ p) by
        unfold Event.dumpLines; simp [hine, hevc]]
    rw [parseLines_cons, processLine_id]
    simp only []
    rw [parseLines_cons, processLine_event]
    simp only []
    rw [parseLines_dataLines]
    simp [Event.default, foldl_pyData_splitNl2 hd2]
  · subst hevc
    have hine : i ≠ [] := (hid i (by simp)).1
    have hrne : r ≠ 0 := hrt r (by simp)
    rw [show Event.dumpLines ⟨d, "message".data, some i, some r⟩ =
      ("id: ".data ++ i) :: ("retry: ".data ++ intRepr r) ::
        (splitNl d).map (fun p => "data: ".data ++ p) by
        unfold Event.dumpLines; simp [hine, hrne]]
    rw [parseLines_cons, processLine_id]
    simp only []
    rw [parseLines_cons, processLine_retry, pyInt_intRepr]
    simp only []
    rw [parseLines_dataLines]
    simp [Event.default, foldl_pyData_splitNl2 hd2]
  · have hine : i ≠ [] := (hid i (by simp)).1
    have hrne : r ≠ 0 := hrt r (by simp)
    rw [show Event.dumpLines ⟨d, ev, some i, some r⟩ =
      ("id: ".data ++ i) :: ("event: ".data ++ ev) :: ("retry: ".data ++ intRepr r) ::
        (splitNl d).map (fun p => "data: ".data ++ p) by
        unfold Event.dumpLines; simp [hine, hevc, hrne]]
    rw [parseLines_cons, processLine_id]
    simp only []
    rw [parseLines_cons, processLine_event]
    simp only []
    rw [parseLines_cons, processLine_retry, pyInt_intRepr]
    simp only []
    rw [parseLines_dataLines]
    simp [Event.default, foldl_pyData_splitNl2 hd2]

/-- Witness for `c1_round_trip` at a concrete Event. -/
theorem c1_round_trip_witness :
    Event.parse (Event.dump ⟨"line1\nline2".data, "greet".data, some "42".data, some 250⟩) =
      .ok ⟨"line1\nline2".data, "greet".data, some "42".data, some 250⟩ :=
  c1_round_trip _ _ _ _ (by decide) (by decide) (by decide) (by decide) (by decide)

/-! ### Parse totality and the retry failure mode -/

lemma processLine_case_empty {line : Str} (msg : Event)
    (h : (Event.sseLineMatch line).1 = []) :
    Event.processLine msg line = .ok msg := by
  simp [Event.processLine, h]

lemma processLine_case_data {line : Str} (msg : Event)
    (h : (Event.sseLineMatch line).1 = "data".data) :
    Event.processLine msg line =
      .ok { msg with data := if msg.data ≠ [] then msg.data ++ '\n' :: (Event.sseLineMatch line).2
                             else (Event.sseLineMatch line).2 } := by
  simp [Event.processLine, h]

lemma processLine_case_event {line : Str} (msg : Event)
    (h : (Event.sseLineMatch line).1 = "event".data) :
    Event.processLine msg line = .ok { msg with event := (Event.sseLineMatch line).2 } := by
  simp [Event.processLine, h]

lemma processLine_case_id {line : Str} (msg : Event)
    (h : (Event.sseLineMatch line).1 = "id".data) :
    Event.processLine msg line = .ok { msg with id := some (Event.sseLineMatch line).2 } := by
  simp [Event.processLine, h]

lemma processLine_case_retry {line : Str} (msg : Event)
    (h : (Event.sseLineMatch line).1 = "retry".data) :
    Event.processLine msg line =
      match pyInt (Event.sseLineMatch line).2 with
      | some n => .ok { msg with retry := some n }
      | none => .error (Event.sseLineMatch line).2 := by
  simp [Event.processLine, h]

lemma processLine_case_other {line : Str} (msg : Event)
    (h0 : (Event.sseLineMatch line).1 ≠ [])
    (h1 : (Event.sseLineMatch line).1 ≠ "data".data)
    (h2 : (Event.sseLineMatch line).1 ≠ "event".data)
    (h3 : (Event.sseLineMatch line).1 ≠ "id".data)
    (h4 : (Event.sseLineMatch line).1 ≠ "retry".data) :
    Event.processLine msg line = .ok msg := by
  simp [Event.processLine, h0, h1, h2, h3, h4]

lemma processLine_error_iff (msg : Event) (line : Str) :
    (∃ err, Event.processLine msg line = .error err) ↔
      ((Event.sseLineMatch line).1 = "retry".data ∧
        pyInt (Event.sseLineMatch line).2 = none) := by
  by_cases e4 : (Event.sseLineMatch line).1 = "retry".data
  · rw [processLine_case_retry msg e4]
    rcases hp : pyInt (Event.sseLineMatch line).2 with _ | n
    · simp [e4, hp]
    · simp [e4, hp]
  · constructor
    · rintro ⟨err, herr⟩
      exfalso
      by_cases e0 : (Event.sseLineMatch line).1 = []
      · rw [processLine_case_empty msg e0] at herr; exact absurd herr (by simp)
      · by_cases e1 : (Event.sseLineMatch line).1 = "data".data
        · rw [processLine_case_data msg e1] at herr; exact absurd herr (by simp)
        · by_cases e2 : (Event.sseLineMatch line).1 = "event".data
          · rw [processLine_case_event msg e2] at herr; exact absurd herr (by simp)
          · by_cases e3 : (Event.sseLineMatch line).1 = "id".data
            · rw [processLine_case_id msg e3] at herr; exact absurd herr (by simp)
            · rw [processLine_case_other msg e0 e1 e2 e3 e4] at herr
              exact absurd herr (by simp)
    · rintro ⟨hA, _⟩
      exact absurd hA e4

lemma processLine_ok_fields {msg : Event} {line : Str} {m : Event}
    (h : Event.processLine msg line = .ok m) :
    (m.id = msg.id ∨ (Event.sseLineMatch line).1 = "id".data) ∧
    (m.retry = msg.retry ∨
      ((Event.sseLineMatch line).1 = "retry".data ∧
        pyInt (Event.sseLineMatch line).2 = m.retry)) := by
  by_cases e0 : (Event.sseLineMatch line).1 = []
  · rw [processLine_case_empty msg e0] at h
    injection h with h; subst h; simp
  · by_cases e1 : (Event.sseLineMatch line).1 = "data".data
    · rw [processLine_case_data msg e1] at h
      injection h with h; subst h; simp
    · by_cases e2 : (Event.sseLineMatch line).1 = "event".data
      · rw [processLine_case_event msg e2] at h
        injection h with h; subst h; simp
      · by_cases e3 : (Event.sseLineMatch line).1 = "id".data
        · rw [processLine_case_id msg e3] at h
          injection h with h; subst h; simp [e3]
        · by_cases e4 : (Event.sseLineMatch line).1 = "retry".data
          · rw [processLine_case_retry msg e4] at h
            rcases hp : pyInt (Event.sseLineMatch line).2 with _ | n
            · rw [hp] at h; exact absurd h (by simp)
            · rw [hp] at h
              injection h with h; subst h
              simp [e4, hp]
          · rw [processLine_case_other msg e0 e1 e2 e3 e4] at h
            injection h with h; subst h; simp

lemma parseLines_error_iff (ls : List Str) :
    ∀ msg : Event, (∃ err, Event.parseLines msg ls = .error err) ↔
      ∃ l ∈ ls, (Event.sseLineMatch l).1 = "retry".data ∧
        pyInt (Event.sseLineMatch l).2 = none := by
  induction ls with
  | nil => intro msg; simp [Event.parseLines]
  | cons l ls2 ih =>
    intro msg
    rw [parseLines_cons]
    rcases hpl : Event.processLine msg l with err | m
    · simp only []
      constructor
      · intro _
        exact ⟨l, by simp, (processLine_error_iff msg l).1 ⟨err, hpl⟩⟩
      · intro _; exact ⟨err, rfl⟩
    · simp only []
      rw [ih m]
      constructor
      · intro ⟨l2, hl2, hprop⟩
        exact ⟨l2, by simp [hl2], hprop⟩
      · intro ⟨l2, hl2, hprop⟩
        rcases List.mem_cons.1 hl2 with rfl | hl2
        · exfalso
          have : ∃ err, Event.processLine msg l2 = .error err :=
            (processLine_error_iff msg l2).2 hprop
          rcases this with ⟨err, herr⟩
          rw [hpl] at herr
          exact absurd herr (by simp)
        · exact ⟨l2, hl2, hprop⟩

lemma parseLines_ok_id (ls : List Str) :
    ∀ (msg m : Event), Event.parseLines msg ls = .ok m →
      (∀ l ∈ ls, (Event.sseLineMatch l).1 ≠ "id".data) → m.id = msg.id := by
  induction ls with
  | nil => intro msg m h _; injection h with h; rw [h]
  | cons l ls2 ih =>
    intro msg m h hn
    rw [parseLines_cons] at h
    rcases hpl : Event.processLine msg l with err | m1
    · rw [hpl] at h; exact absurd h (by simp)
    · rw [hpl] at h
      simp only [] at h
      have h1 := ih m1 m h (fun l2 hl2 => hn l2 (by simp [hl2]))
      rcases (processLine_ok_fields hpl).1 with h2 | h2
      · rw [h1, h2]
      · exact absurd h2 (hn l (by simp))

lemma parseLines_ok_retry (ls : List Str) :
    ∀ (msg m : Event), Event.parseLines msg ls = .ok m →
      m.retry = msg.retry ∨
        ∃ l ∈ ls, (Event.sseLineMatch l).1 = "retry".data ∧
          pyInt (Event.sseLineMatch l).2 = m.retry := by
  induction ls with
  | nil => intro msg m h; injection h with h; rw [h]; simp
  | cons l ls2 ih =>
    intro msg m h
    rw [parseLines_cons] at h
    rcases hpl : Event.processLine msg l with err | m1
    · rw [hpl] at h; exact absurd h (by simp)
    · rw [hpl] at h
      simp only [] at h
      rcases ih m1 m h with h1 | ⟨l2, hl2, hprop⟩
      · rcases (processLine_ok_fields hpl).2 with h2 | h2
        · left; rw [h1, h2]
        · right
          exact ⟨l, by simp, h2.1, by rw [h2.2, h1]⟩
      · right
        exact ⟨l2, by simp [hl2], hprop⟩

/-- C3: `Event.parse` fails (the `ValueError` from `int`) exactly when
some line of the input has field name `retry` with a value rejected by
the integer parser; on success, `id` and `retry` stay unset whenever no
line carries the corresponding field name. -/
theorem c3_parse_total (raw : Str) :
    ((∃ err, Event.parse raw = .error err) ↔
      ∃ l ∈ Event.splitlines raw,
        (Event.sseLineMatch l).1 = "retry".data ∧
          pyInt (Event.sseLineMatch l).2 = none) ∧
    (∀ e, Event.parse raw = .ok e →
      ((∀ l ∈ Event.splitlines raw, (Event.sseLineMatch l).1 ≠ "id".data) → e.id = none) ∧
      ((∀ l ∈ Event.splitlines raw, (Event.sseLineMatch l).1 ≠ "retry".data) → e.retry = none)) := by
  refine ⟨parseLines_error_iff _ _, fun e he => ⟨fun hn => ?_, fun hn => ?_⟩⟩
  · rw [parseLines_ok_id _ _ _ he hn]; rfl
  · rcases parseLines_ok_retry _ _ _ he with h | ⟨l, hl, hprop⟩
    · rw [h]; rfl
    · exact absurd hprop.1 (hn l hl)

/-- Witness for `c3_parse_total`: a malformed `retry` value makes the
parse fail. -/
theorem c3_parse_total_witness :
    ∃ err, Event.parse "retry: zz".data = .error err :=
  (c3_parse_total "retry: zz".data).1.2
    ⟨"retry: zz".data, by decide, by decide, by decide⟩

/-- C9, amended: on success the parsed `retry` is either unset or the
exact integer Python `int` produced from the value of some `retry` line
(which may be negative, e.g. for `"retry: -5"`). -/
theorem c9_retry_origin (raw : Str) (e : Event) (h : Event.parse raw = .ok e) :
    e.retry = none ∨
      ∃ l ∈ Event.splitlines raw,
        (Event.sseLineMatch l).1 = "retry".data ∧
          pyInt (Event.sseLineMatch l).2 = e.retry := by
  rcases parseLines_ok_retry _ _ _ h with h1 | h1
  · left; rw [h1]; rfl
  · right; exact h1

/-- Witness for `c9_retry_origin` at `"retry: -5"`. -/
theorem c9_retry_origin_witness :
    (Event.mk [] "message".data none (some (-5))).retry = none ∨
      ∃ l ∈ Event.splitlines "retry: -5".data,
        (Event.sseLineMatch l).1 = "retry".data ∧
          pyInt (Event.sseLineMatch l).2 = (Event.mk [] "message".data none (some (-5))).retry :=
  c9_retry_origin "retry: -5".data _ (by decide)

/-! ### The dump line shape (C5, amended) -/

lemma isPrefixOf_self_append (l1 l2 : Str) : l1.isPrefixOf (l1 ++ l2) = true := by
  induction l1 with
  | nil => simp
  | cons c rest ih => simp [List.isPrefixOf, ih]

/-- C5, amended: `dump` emits an `id:` line exactly when `id` is set
and nonempty, an `event:` line exactly when `event` differs from
`"message"`, a `retry:` line exactly when `retry` is set and nonzero,
and one `data:` line per line of `data` — in particular a single
`"data: "` line remains even when `data` is empty and nothing else is
set; the result always ends with the blank-line boundary `\n\n`. -/
theorem c5_dump_shape (e : Event) :
    ((Event.dumpLines e).countP (fun l => "id: ".data.isPrefixOf l) =
      match e.id with
      | some i => if i ≠ [] then 1 else 0
      | none => 0) ∧
    ((Event.dumpLines e).countP (fun l => "event: ".data.isPrefixOf l) =
      if e.event ≠ "message".data then 1 else 0) ∧
    ((Event.dumpLines e).countP (fun l => "retry: ".data.isPrefixOf l) =
      match e.retry with
      | some r => if r ≠ 0 then 1 else 0
      | none => 0) ∧
    ((Event.dumpLines e).countP (fun l => "data: ".data.isPrefixOf l) =
      (splitNl e.data).length) ∧
    (∃ p, Event.dump e = p ++ ['\n', '\n']) := by
  refine ⟨?_, ?_, ?_, ?_, ⟨joinNl (Event.dumpLines e), rfl⟩⟩
  · unfold Event.dumpLines
    rw [List.countP_append, List.countP_append, List.countP_append]
    have h4 : ((splitNl e.data).map (fun d => "data: ".data ++ d)).countP
        (fun l => "id: ".data.isPrefixOf l) = 0 := by
      rw [List.countP_map]
      exact List.countP_eq_zero.2 (fun a _ => by simp [Function.comp])
    have h2 : (if e.event ≠ "message".data then ["event: ".data ++ e.event] else []).countP
        (fun l => "id: ".data.isPrefixOf l) = 0 := by
      by_cases hevc : e.event ≠ "message".data <;>
        simp [hevc, List.countP_cons]
    have h3 : (match e.retry with
        | some r => if r ≠ 0 then ["retry: ".data ++ intRepr r] else []
        | none => []).countP (fun l => "id: ".data.isPrefixOf l) = 0 := by
      rcases e.retry with _ | r
      · rfl
      · by_cases hrne : r ≠ 0 <;> simp [hrne, List.countP_cons]
    rw [h2, h3, h4]
    rcases e.id with _ | i
    · rfl
    · by_cases hine : i ≠ []
      · simp [hine, List.countP_cons, isPrefixOf_self_append]
      · simp [hine]
  · unfold Event.dumpLines
    rw [List.countP_append, List.countP_append, List.countP_append]
    have h4 : ((splitNl e.data).map (fun d => "data: ".data ++ d)).countP
        (fun l => "event: ".data.isPrefixOf l) = 0 := by
      rw [List.countP_map]
      exact List.countP_eq_zero.2 (fun a _ => by simp [Function.comp])
    have h1 : (match e.id with
        | some i => if i ≠ [] then ["id: ".data ++ i] else []
        | none => []).countP (fun l => "event: ".data.isPrefixOf l) = 0 := by
      rcases e.id with _ | i
      · rfl
      · by_cases hine : i ≠ [] <;> simp [hine, List.countP_cons]
    have h3 : (match e.retry with
        | some r => if r ≠ 0 then ["retry: ".data ++ intRepr r] else []
        | none => []).countP (fun l => "event: ".data.isPrefixOf l) = 0 := by
      rcases e.retry with _ | r
      · rfl
      · by_cases hrne : r ≠ 0 <;> simp [hrne, List.countP_cons]
    rw [h1, h3, h4]
    by_cases hevc : e.event ≠ "message".data
    · simp [hevc, List.countP_cons, isPrefixOf_self_append]
    · simp [hevc]
  · unfold Event.dumpLines
    rw [List.countP_append, List.countP_append, List.countP_append]
    have h4 : ((splitNl e.data).map (fun d => "data: ".data ++ d)).countP
        (fun l => "retry: ".data.isPrefixOf l) = 0 := by
      rw [List.countP_map]
      exact List.countP_eq_zero.2 (fun a _ => by simp [Function.comp])
    have h1 : (match e.id with
        | some i => if i ≠ [] then ["id: ".data ++ i] else []
        | none => []).countP (fun l => "retry: ".data.isPrefixOf l) = 0 := by
      rcases e.id with _ | i
      · rfl
      · by_cases hine : i ≠ [] <;> simp [hine, List.countP_cons]
    have h2 : (if e.event ≠ "message".data then ["event: ".data ++ e.event] else []).countP
        (fun l => "retry: ".data.isPrefixOf l) = 0 := by
      by_cases hevc : e.event ≠ "message".data <;>
        simp [hevc, List.countP_cons]
    rw [h1, h2, h4]
    rcases e.retry with _ | r
    · rfl
    · by_cases hrne : r ≠ 0
      · simp [hrne, List.countP_cons, isPrefixOf_self_append]
      · simp [hrne]
  · unfold Event.dumpLines
    rw [List.countP_append, List.countP_append, List.countP_append]
    have h4 : ((splitNl e.data).map (fun d => "data: ".data ++ d)).countP
        (fun l => "data: ".data.isPrefixOf l) = (splitNl e.data).length := by
      rw [List.countP_map]
      exact List.countP_eq_length.2
        (fun a _ => by simp [Function.comp, isPrefixOf_self_append])
    have h1 : (match e.id with
        | some i => if i ≠ [] then ["id: ".data ++ i] else []
        | none => []).countP (fun l => "data: ".data.isPrefixOf l) = 0 := by
      rcases e.id with _ | i
      · rfl
      · by_cases hine : i ≠ [] <;> simp [hine, List.countP_cons]
    have h2 : (if e.event ≠ "message".data then ["event: ".data ++ e.event] else []).countP
        (fun l => "data: ".data.isPrefixOf l) = 0 := by
      by_cases hevc : e.event ≠ "message".data <;>
        simp [hevc, List.countP_cons]
    have h3 : (match e.retry with
        | some r => if r ≠ 0 then ["retry: ".data ++ intRepr r] else []
        | none => []).countP (fun l => "data: ".data.isPrefixOf l) = 0 := by
      rcases e.retry with _ | r
      · rfl
      · by_cases hrne : r ≠ 0 <;> simp [hrne, List.countP_cons]
    rw [h1, h2, h3, h4]
    omega

/-- Witness for `c5_dump_shape`: the serialized form always ends with
the blank-line boundary. -/
theorem c5_dump_shape_witness :
    ∃ p, Event.dump ⟨"x".data, "custom".data, some "7".data, some 9⟩ = p ++ ['\n', '\n'] :=
  (c5_dump_shape ⟨"x".data, "custom".data, some "7".data, some 9⟩).2.2.2.2

/-! ### Boundary detection (C4) -/

lemma startsBdry_some {l sep r : Str} (h : startsBdry l = some (sep, r)) :
    isBdry sep ∧ l = sep ++ r := by
  unfold startsBdry at h
  split_ifs at h with h1 h2 h3 <;>
    simp only [Option.some.injEq, Prod.mk.injEq] at h
  · obtain ⟨hsep, hr⟩ := h
    refine ⟨Or.inl hsep.symm, ?_⟩
    rw [← hsep, ← hr, ← h1]
    exact (List.take_append_drop 4 l).symm
  · obtain ⟨hsep, hr⟩ := h
    refine ⟨Or.inr (Or.inl hsep.symm), ?_⟩
    rw [← hsep, ← hr, ← h2]
    exact (List.take_append_drop 2 l).symm
  · obtain ⟨hsep, hr⟩ := h
    refine ⟨Or.inr (Or.inr hsep.symm), ?_⟩
    rw [← hsep, ← hr, ← h3]
    exact (List.take_append_drop 2 l).symm

lemma startsBdry_isBdry {sep : Str} (h : isBdry sep) (r : Str) :
    startsBdry (sep ++ r) = some (sep, r) := by
  rcases h with rfl | rfl | rfl
  · unfold startsBdry
    rw [if_pos]
    · rw [show List.drop 4 (['\r', '\n', '\r', '\n'] ++ r) = r from rfl]
    · rfl
  · unfold startsBdry
    rw [if_neg, if_pos]
    · rw [show List.drop 2 (['\r', '\r'] ++ r) = r from rfl]
    · rfl
    · rcases r with _ | ⟨c1, r1⟩
      · simp
      · rcases r1 with _ | ⟨c2, r2⟩ <;> intro hcon <;> simp at hcon
  · unfold startsBdry
    rw [if_neg, if_neg, if_pos]
    · rw [show List.drop 2 (['\n', '\n'] ++ r) = r from rfl]
    · rfl
    · rcases r with _ | ⟨c1, r1⟩
      · simp
      · rcases r1 with _ | ⟨c2, r2⟩ <;> intro hcon <;> simp at hcon
    · rcases r with _ | ⟨c1, r1⟩
      · simp
      · rcases r1 with _ | ⟨c2, r2⟩ <;> intro hcon <;> simp at hcon

lemma splitBoundary_cons_none {c : Char} {rest : Str} (h : startsBdry (c :: rest) = none) :
    splitBoundary (c :: rest) = (splitBoundary rest).map (fun pq => (c :: pq.1, pq.2)) := by
  simp [splitBoundary, h]

lemma splitBoundary_cons_some {c : Char} {rest sep r : Str}
    (h : startsBdry (c :: rest) = some (sep, r)) :
    splitBoundary (c :: rest) = some ([], r) := by
  simp [splitBoundary, h]

lemma splitBoundary_some_spec : ∀ {buf p q : Str}, splitBoundary buf = some (p, q) →
    ∃ sep, isBdry sep ∧ buf = p ++ sep ++ q ∧
      ∀ p2 sep2 q2, isBdry sep2 → buf = p2 ++ sep2 ++ q2 → p.length ≤ p2.length := by
  intro buf
  induction buf with
  | nil => intro p q h; exact absurd h (by simp [splitBoundary])
  | cons c rest ih =>
    intro p q h
    rcases hsb : startsBdry (c :: rest) with _ | ⟨sep0, r0⟩
    · rw [splitBoundary_cons_none hsb] at h
      rcases hrec : splitBoundary rest with _ | ⟨p', q'⟩
      · rw [hrec] at h; exact absurd h (by simp)
      · rw [hrec] at h
        simp only [Option.map_some', Option.some.injEq, Prod.mk.injEq] at h
        obtain ⟨hp, hq⟩ := h
        obtain ⟨sep, hsep, heq, hmin⟩ := ih hrec
        subst hq
        refine ⟨sep, hsep, ?_, ?_⟩
        · rw [← hp, heq]
          rfl
        · intro p2 sep2 q2 hb2 heq2
          rcases p2 with _ | ⟨c2, p2'⟩
          · exfalso
            have hsb2 := startsBdry_isBdry hb2 q2
            rw [show ([] : Str) ++ sep2 ++ q2 = sep2 ++ q2 from by simp] at heq2
            rw [← heq2, hsb] at hsb2
            exact absurd hsb2 (by simp)
          · have hrest : rest = p2' ++ sep2 ++ q2 := by
              have := congrArg List.tail heq2
              simpa using this
            have := hmin p2' sep2 q2 hb2 hrest
            rw [← hp]
            simp only [List.length_cons]
            omega
    · rw [splitBoundary_cons_some hsb] at h
      obtain ⟨hb0, hl0⟩ := startsBdry_some hsb
      simp only [Option.some.injEq, Prod.mk.injEq] at h
      obtain ⟨hp, hq⟩ := h
      refine ⟨sep0, hb0, ?_, ?_⟩
      · rw [← hp, ← hq, hl0]
        simp
      · intro p2 sep2 q2 _ _
        rw [← hp]
        simp

lemma splitBoundary_none_spec : ∀ {buf : Str}, splitBoundary buf = none →
    ∀ p sep q, isBdry sep → buf ≠ p ++ sep ++ q := by
  intro buf
  induction buf with
  | nil =>
    intro _ p sep q hb heq
    rcases hb with rfl | rfl | rfl <;> simp at heq
  | cons c rest ih =>
    intro h p sep q hb heq
    rcases hsb : startsBdry (c :: rest) with _ | pr
    · rw [splitBoundary_cons_none hsb] at h
      have hrec : splitBoundary rest = none := by
        rcases hh : splitBoundary rest with _ | z
        · rfl
        · rw [hh] at h; simp at h
      rcases p with _ | ⟨c2, p'⟩
      · have hsb2 := startsBdry_isBdry hb q
        rw [show ([] : Str) ++ sep ++ q = sep ++ q from by simp] at heq
        rw [← heq, hsb] at hsb2
        exact absurd hsb2 (by simp)
      · rw [show (c2 :: p') ++ sep ++ q = c2 :: (p' ++ sep ++ q) from rfl] at heq
        injection heq with _ h2
        exact ih hrec p' sep q hb h2
    · rw [splitBoundary_cons_some hsb] at h
      exact absurd h (by simp)

lemma event_complete_iff (buf : Str) :
    event_complete buf = true ↔ ∃ p sep q, isBdry sep ∧ buf = p ++ sep ++ q := by
  unfold event_complete
  constructor
  · intro h
    rcases hsp : splitBoundary buf with _ | ⟨p, q⟩
    · rw [hsp] at h; simp at h
    · obtain ⟨sep, hsep, heq, _⟩ := splitBoundary_some_spec hsp
      exact ⟨p, sep, q, hsep, heq⟩
  · rintro ⟨p, sep, q, hsep, heq⟩
    rcases hsp : splitBoundary buf with _ | ⟨p', q'⟩
    · exact absurd heq (splitBoundary_none_spec hsp p sep q hsep)
    · simp [hsp]

lemma next_of_boundary (s : SSEClient) (script : List Step) {p q : Str}
    (h : splitBoundary s.buf = some (p, q)) :
    SSEClient.next s script = SSEClient.emit s p q script := by
  cases script <;> simp [SSEClient.next, h]

/-! ### SSEClient step equations -/

lemma next_nil_none (s : SSEClient) (h : splitBoundary s.buf = none) :
    SSEClient.next s [] = none := by
  simp [SSEClient.next, h]

lemma next_cons_chunk (s : SSEClient) {c : Str} (rest : List Step)
    (h : splitBoundary s.buf = none) (hc : c ≠ []) :
    SSEClient.next s (.chunk c :: rest) = SSEClient.next { s with buf := s.buf ++ c } rest := by
  simp [SSEClient.next, h, hc]

lemma next_cons_fail (s : SSEClient) (rest : List Step) (h : splitBoundary s.buf = none) :
    SSEClient.next s (.fail :: rest) =
      match SSEClient.next { s with buf := trimNl s.buf } rest with
      | none => none
      | some (r, s1, sc1, acts) =>
          some (r, s1, sc1, .diag :: .slept s.retry :: .reconnected :: acts) := by
  simp [SSEClient.next, h]

lemma next_cons_chunk_empty (s : SSEClient) (rest : List Step)
    (h : splitBoundary s.buf = none) :
    SSEClient.next s (.chunk [] :: rest) =
      match SSEClient.next { s with buf := trimNl s.buf } rest with
      | none => none
      | some (r, s1, sc1, acts) =>
          some (r, s1, sc1, .diag :: .slept s.retry :: .reconnected :: acts) := by
  simp [SSEClient.next, h]

lemma emit_ok {s : SSEClient} {p q : Str} {script : List Step} {e : Event}
    {s2 : SSEClient} {sc2 : List Step} {acts : List Act}
    (h : SSEClient.emit s p q script = some (.ok e, s2, sc2, acts)) :
    Event.parse p = .ok e ∧ s2 = s.handleMsg q e ∧ sc2 = script ∧ acts = [] := by
  unfold SSEClient.emit at h
  rcases hp : Event.parse p with err | e1 <;> rw [hp] at h
  · simp at h
  · simp only [Option.some.injEq, Prod.mk.injEq] at h
    obtain ⟨h1, h2, h3, h4⟩ := h
    injection h1 with h1
    subst h1
    exact ⟨rfl, h2.symm, h3.symm, h4.symm⟩

/-! ### Sticky updates (C2) -/

lemma next_ok_updates : ∀ (script : List Step) (s : SSEClient) (e : Event)
    (s2 : SSEClient) (sc2 : List Step) (acts : List Act),
    SSEClient.next s script = some (.ok e, s2, sc2, acts) →
    s2.retry = (match e.retry with
                | some rv => if rv ≠ 0 then rv else s.retry
                | none => s.retry) ∧
    s2.last_id = (match e.id with
                  | some i => if i ≠ [] then some i else s.last_id
                  | none => s.last_id) := by
  intro script
  induction script with
  | nil =>
    intro s e s2 sc2 acts h
    rcases hsp : splitBoundary s.buf with _ | ⟨p, q⟩
    · rw [next_nil_none s hsp] at h; exact absurd h (by simp)
    · rw [next_of_boundary s [] hsp] at h
      obtain ⟨_, hs2, _, _⟩ := emit_ok h
      subst hs2
      exact ⟨rfl, rfl⟩
  | cons step rest ih =>
    intro s e s2 sc2 acts h
    rcases hsp : splitBoundary s.buf with _ | ⟨p, q⟩
    · cases step with
      | chunk c =>
        by_cases hc : c = []
        · subst hc
          rw [next_cons_chunk_empty s rest hsp] at h
          rcases hrec : SSEClient.next { s with buf := trimNl s.buf } rest with
            _ | ⟨r1, s1, sc1, acts1⟩ <;> rw [hrec] at h
          · exact absurd h (by simp)
          · simp only [Option.some.injEq, Prod.mk.injEq] at h
            obtain ⟨h1, h2, _, _⟩ := h
            subst h1 h2
            exact ih { s with buf := trimNl s.buf } e _ sc1 acts1 hrec
        · rw [next_cons_chunk s rest hsp hc] at h
          exact ih { s with buf := s.buf ++ c } e s2 sc2 acts h
      | fail =>
        rw [next_cons_fail s rest hsp] at h
        rcases hrec : SSEClient.next { s with buf := trimNl s.buf } rest with
          _ | ⟨r1, s1, sc1, acts1⟩ <;> rw [hrec] at h
        · exact absurd h (by simp)
        · simp only [Option.some.injEq, Prod.mk.injEq] at h
          obtain ⟨h1, h2, _, _⟩ := h
          subst h1 h2
          exact ih { s with buf := trimNl s.buf } e _ sc1 acts1 hrec
    · rw [next_of_boundary s (step :: rest) hsp] at h
      obtain ⟨_, hs2, _, _⟩ := emit_ok h
      subst hs2
      exact ⟨rfl, rfl⟩

/-- C2, amended: after `next()` returns a message, `retry` is
overwritten exactly when the message carries a truthy (nonzero) retry
value, and `last_id` exactly when it carries a truthy (nonempty) id —
a `retry: 0` or empty-id field is carried by the message but does not
overwrite.  The stickiness scenario of the spec holds: after M1 with
id `"abcdef"` and M2 without id, the reader's last-seen id is
`"abcdef"`. -/
theorem c2_sticky :
    (∀ (script : List Step) (s : SSEClient) (e : Event) (s2 : SSEClient)
      (sc2 : List Step) (acts : List Act),
      SSEClient.next s script = some (.ok e, s2, sc2, acts) →
      s2.retry = (match e.retry with
                  | some rv => if rv ≠ 0 then rv else s.retry
                  | none => s.retry) ∧
      s2.last_id = (match e.id with
                    | some i => if i ≠ [] then some i else s.last_id
                    | none => s.last_id)) ∧
    (SSEClient.run 2 ⟨[], none, 3000⟩
        [.chunk "data: m1\nid: abcdef\n\ndata: m2\n\n".data]).2.1.last_id =
      some "abcdef".data := by
  exact ⟨next_ok_updates, by decide⟩

/-- Witness for `c2_sticky`: a message carrying `retry: 250` and
`id: a` overwrites both sticky fields. -/
theorem c2_sticky_witness :
    (SSEClient.handleMsg ⟨[], none, 3000⟩ [] ⟨[], "message".data, some "a".data, some 250⟩).retry =
        (match (some 250 : Option Int) with
         | some rv => if rv ≠ 0 then rv else (3000 : Int)
         | none => (3000 : Int)) ∧
    (SSEClient.handleMsg ⟨[], none, 3000⟩ [] ⟨[], "message".data, some "a".data, some 250⟩).last_id =
        (match (some "a".data : Option Str) with
         | some i => if i ≠ [] then some i else (none : Option Str)
         | none => (none : Option Str)) :=
  c2_sticky.1 [] ⟨"id: a\nretry: 250\n\n".data, none, 3000⟩
    ⟨[], "message".data, some "a".data, some 250⟩ _ [] [] (by decide)

/-! ### Boundary recognition and message splitting (C4) -/

/-- C4: the reader recognizes a message boundary exactly when the
buffer contains `\r\n\r\n`, `\r\r` or `\n\n` (doubled single-convention
terminators only); `next()` then splits the buffer at the leftmost such
boundary into `(messageText, rest)`, keeps `rest` buffered, and hands
`messageText` to `Event.parse`. -/
theorem c4_boundary :
    (∀ buf : Str, event_complete buf = true ↔ ∃ p sep q, isBdry sep ∧ buf = p ++ sep ++ q) ∧
    (∀ buf p q : Str, splitBoundary buf = some (p, q) →
      ∃ sep, isBdry sep ∧ buf = p ++ sep ++ q ∧
        ∀ p2 sep2 q2, isBdry sep2 → buf = p2 ++ sep2 ++ q2 → p.length ≤ p2.length) ∧
    (∀ (s : SSEClient) (script : List Step) (p q : Str) (e : Event),
      splitBoundary s.buf = some (p, q) → Event.parse p = .ok e →
      SSEClient.next s script = some (.ok e, s.handleMsg q e, script, []) ∧
        (s.handleMsg q e).buf = q) := by
  refine ⟨event_complete_iff, fun buf p q h => splitBoundary_some_spec h, ?_⟩
  intro s script p q e hs hp
  refine ⟨?_, rfl⟩
  rw [next_of_boundary s script hs]
  simp [SSEClient.emit, hp]

/-- Witness for `c4_boundary` on the buffer `"data: x\n\nrest"`. -/
theorem c4_boundary_witness :
    SSEClient.next ⟨"data: x\n\nrest".data, none, 3000⟩ [] =
      some (.ok ⟨"x".data, "message".data, none, none⟩,
        SSEClient.handleMsg ⟨"data: x\n\nrest".data, none, 3000⟩ "rest".data
          ⟨"x".data, "message".data, none, none⟩, [], []) ∧
    (SSEClient.handleMsg ⟨"data: x\n\nrest".data, none, 3000⟩ "rest".data
      ⟨"x".data, "message".data, none, none⟩).buf = "rest".data :=
  c4_boundary.2.2 ⟨"data: x\n\nrest".data, none, 3000⟩ [] "data: x".data "rest".data
    ⟨"x".data, "message".data, none, none⟩ (by decide) (by decide)

/-! ### Transport failure handling (C6) -/

lemma trimNl_no_nl {b : Str} (h : '\n' ∉ b) : trimNl b = [] := by
  induction b with
  | nil => rfl
  | cons c rest ih =>
    have hc : c ≠ '\n' := fun hcon => h (by simp [hcon])
    have hrest : trimNl rest = [] := ih (fun hcon => h (by simp [hcon]))
    simp [trimNl, hrest, hc]

lemma trimNl_spec (b : Str) : ∃ t, b = trimNl b ++ t ∧ '\n' ∉ t ∧
    (trimNl b = [] ∨ (trimNl b).getLast? = some '\n') := by
  induction b with
  | nil => exact ⟨[], rfl, by simp, Or.inl rfl⟩
  | cons c rest ih =>
    obtain ⟨t, ht, htn, hl⟩ := ih
    by_cases h0 : trimNl rest = []
    · rw [h0] at ht
      simp only [List.nil_append] at ht
      by_cases hc : c = '\n'
      · subst hc
        refine ⟨rest, ?_, by rw [ht]; exact htn, Or.inr ?_⟩
        · rw [show trimNl ('\n' :: rest) = ['\n'] from by simp [trimNl, h0]]
          rfl
        · rw [show trimNl ('\n' :: rest) = ['\n'] from by simp [trimNl, h0]]
          rfl
      · refine ⟨c :: rest, ?_, ?_, Or.inl ?_⟩
        · rw [show trimNl (c :: rest) = [] from by simp [trimNl, h0, hc]]
          rfl
        · intro hcon
          rcases List.mem_cons.1 hcon with hcon | hcon
          · exact hc hcon.symm
          · rw [ht] at hcon; exact htn hcon
        · simp [trimNl, h0, hc]
    · have heq : trimNl (c :: rest) = c :: trimNl rest := by
        simp [trimNl, h0]
      refine ⟨t, ?_, htn, Or.inr ?_⟩
      · rw [heq, List.cons_append, ← ht]
      · rw [heq]
        rcases htr : trimNl rest with _ | ⟨x, xs⟩
        · exact absurd htr h0
        · rw [List.getLast?_cons_cons]
          rw [htr] at hl
          rcases hl with hl | hl
          · exact absurd hl (by simp)
          · exact hl

lemma run_succ (n : Nat) (s : SSEClient) (sc : List Step) :
    SSEClient.run (n + 1) s sc =
      match SSEClient.next s sc with
      | none => ([], s, sc)
      | some (r, s1, sc1, _) =>
        match SSEClient.run n s1 sc1 with
        | (rs, s2, sc2) => (r :: rs, s2, sc2) := rfl

lemma run_fail_discard (n : Nat) (li : Option Str) (r0 : Int) (rest : List Step) :
    (SSEClient.run n ⟨"data: partial".data, li, r0⟩ (.fail :: rest)).1 =
      (SSEClient.run n ⟨[], li, r0⟩ rest).1 := by
  cases n with
  | zero => rfl
  | succ n =>
    have hsp : splitBoundary "data: partial".data = none := by decide
    have hnext : SSEClient.next ⟨"data: partial".data, li, r0⟩ (.fail :: rest) =
        match SSEClient.next ⟨[], li, r0⟩ rest with
        | none => none
        | some (r, s1, sc1, acts) =>
            some (r, s1, sc1, .diag :: .slept r0 :: .reconnected :: acts) := by
      rw [next_cons_fail _ rest hsp]
      rw [show trimNl "data: partial".data = [] from by decide]
    rcases hrec : SSEClient.next ⟨[], li, r0⟩ rest with _ | ⟨r1, s1, sc1, acts1⟩
    · rw [run_succ, run_succ, hnext, hrec]
    · rw [run_succ, run_succ, hnext, hrec]

/-- C6: on a transport failure `next()` emits the diagnostic, sleeps
for the current retry interval (in milliseconds), reconnects, discards
the trailing partial line of the buffer (truncating to the last
`\n`-terminated prefix — the whole buffer when it holds no newline),
and continues; consequently a buffer holding the unterminated fragment
`"data: partial"` behaves, for every continuation of the stream,
exactly like an empty buffer: the fragment is never replayed in any
returned message. -/
theorem c6_reconnect :
    (∀ (s : SSEClient) (rest : List Step), splitBoundary s.buf = none →
      SSEClient.next s (.fail :: rest) =
        match SSEClient.next { s with buf := trimNl s.buf } rest with
        | none => none
        | some (r, s1, sc1, acts) =>
            some (r, s1, sc1, .diag :: .slept s.retry :: .reconnected :: acts)) ∧
    (∀ b : Str, '\n' ∉ b → trimNl b = []) ∧
    (∀ b : Str, ∃ t, b = trimNl b ++ t ∧ '\n' ∉ t ∧
      (trimNl b = [] ∨ (trimNl b).getLast? = some '\n')) ∧
    (∀ (n : Nat) (li : Option Str) (r0 : Int) (rest : List Step),
      (SSEClient.run n ⟨"data: partial".data, li, r0⟩ (.fail :: rest)).1 =
        (SSEClient.run n ⟨[], li, r0⟩ rest).1) :=
  ⟨next_cons_fail, fun _ h => trimNl_no_nl h, trimNl_spec, run_fail_discard⟩

/-- Witness for `c6_reconnect`: the buffer `"data: partial"` holds no
newline, so the failure handler discards it entirely. -/
theorem c6_reconnect_witness : trimNl "data: partial".data = [] :=
  c6_reconnect.2.1 "data: partial".data (by decide)

/-! ### No spurious events between messages (C7) -/

lemma startsBdry_none_of_head {c : Char} (x : Str) (h1 : c ≠ '\r') (h2 : c ≠ '\n') :
    startsBdry (c :: x) = none := by
  unfold startsBdry
  rw [if_neg, if_neg, if_neg]
  · intro hcon
    rw [List.take_succ_cons] at hcon
    injection hcon with hc _
    exact h2 hc
  · intro hcon
    rw [List.take_succ_cons] at hcon
    injection hcon with hc _
    exact h1 hc
  · intro hcon
    rw [List.take_succ_cons] at hcon
    injection hcon with hc _
    exact h1 hc

lemma startsBdry_none_nl {x : Str} (h : x.head? ≠ some '\n') :
    startsBdry ('\n' :: x) = none := by
  unfold startsBdry
  rw [if_neg, if_neg, if_neg]
  · intro hcon
    rw [List.take_succ_cons] at hcon
    injection hcon with _ hrest
    rcases x with _ | ⟨c2, x2⟩
    · simp at hrest
    · rw [List.take_succ_cons] at hrest
      injection hrest with hc2 _
      exact h (by simp [hc2])
  · intro hcon
    rw [List.take_succ_cons] at hcon
    injection hcon with hc _
    exact absurd hc (by decide)
  · intro hcon
    rw [List.take_succ_cons] at hcon
    injection hcon with hc _
    exact absurd hc (by decide)

lemma splitBoundary_msg : ∀ {l : Str}, LfNoBlank l → l.getLast? ≠ some '\n' →
    ∀ r : Str, splitBoundary (l ++ '\n' :: '\n' :: r) = some (l, r) := by
  intro l
  induction l with
  | nil =>
    intro _ _ r
    rw [List.nil_append]
    exact splitBoundary_cons_some (startsBdry_isBdry (Or.inr (Or.inr rfl)) r)
  | cons c l2 ih =>
    intro hlf hlast r
    have hcr : c ≠ '\r' := hlf.1 c (by simp)
    rw [List.cons_append]
    by_cases hc : c = '\n'
    · subst hc
      rcases l2 with _ | ⟨c2, l3⟩
      · exact absurd rfl hlast
      · have hc2 : c2 ≠ '\n' := by
          intro hcon
          exact (List.chain'_cons.1 hlf.2).1 ⟨rfl, hcon⟩
        have hnone : startsBdry ('\n' :: ((c2 :: l3) ++ '\n' :: '\n' :: r)) = none := by
          apply startsBdry_none_nl
          simp [hc2]
        rw [splitBoundary_cons_none hnone]
        rw [ih ⟨fun a ha => hlf.1 a (by simp [ha]), (List.chain'_cons.1 hlf.2).2⟩
          (by rw [List.getLast?_cons_cons] at hlast; exact hlast) r]
        rfl
    · have hnone : startsBdry (c :: (l2 ++ '\n' :: '\n' :: r)) = none :=
        startsBdry_none_of_head _ hcr hc
      rw [splitBoundary_cons_none hnone]
      have hl2 : LfNoBlank l2 := ⟨fun a ha => hlf.1 a (by simp [ha]), hlf.2.tail⟩
      have hlast2 : l2.getLast? ≠ some '\n' := by
        rcases l2 with _ | ⟨c2, l3⟩
        · simp
        · rw [List.getLast?_cons_cons] at hlast; exact hlast
      rw [ih hl2 hlast2 r]
      rfl

lemma splitlines_cons_nl (m : Str) : Event.splitlines ('\n' :: m) = Event.splitlines m := by
  unfold Event.splitlines
  rw [splitAllNl_nl]
  simp

lemma parse_cons_nl (m : Str) : Event.parse ('\n' :: m) = Event.parse m := by
  unfold Event.parse
  rw [splitlines_cons_nl]

lemma next_msg {s : SSEClient} {w m X : Str}
    (hbuf : s.buf = w ++ m ++ '\n' :: '\n' :: X)
    (hpre : w = [] ∨ w = ['\n'])
    (hm : isMsgText m) {e : Event} (hp : Event.parse m = .ok e) :
    ∃ s2 : SSEClient, SSEClient.next s [] = some (.ok e, s2, [], []) ∧ s2.buf = X := by
  obtain ⟨hne, hlf, hhead, hlast⟩ := hm
  have hlfl : LfNoBlank (w ++ m) := by
    rcases hpre with rfl | rfl
    · simpa using hlf
    · constructor
      · intro a ha
        rcases List.mem_cons.1 (by simpa using ha) with rfl | ha2
        · decide
        · exact hlf.1 a ha2
      · rcases m with _ | ⟨mh, mt⟩
        · exact absurd rfl hne
        · rw [show (['\n'] ++ mh :: mt : Str) = '\n' :: mh :: mt from rfl]
          rw [List.chain'_cons]
          refine ⟨fun hcon => ?_, hlf.2⟩
          have hmh : mh ≠ '\n' := by simpa using hhead
          exact hmh hcon.2
  have hlastl : (w ++ m).getLast? ≠ some '\n' := by
    rcases hpre with rfl | rfl
    · simpa using hlast
    · rcases m with _ | ⟨mh, mt⟩
      · exact absurd rfl hne
      · rw [show (['\n'] ++ mh :: mt : Str) = '\n' :: mh :: mt from rfl,
          List.getLast?_cons_cons]
        exact hlast
  have hsb : splitBoundary s.buf = some (w ++ m, X) := by
    rw [hbuf, show w ++ m ++ '\n' :: '\n' :: X = (w ++ m) ++ '\n' :: '\n' :: X from
      by simp [List.append_assoc]]
    exact splitBoundary_msg hlfl hlastl X
  have hparse : Event.parse (w ++ m) = .ok e := by
    rcases hpre with rfl | rfl
    · simpa using hp
    · rw [show (['\n'] ++ m : Str) = '\n' :: m from rfl, parse_cons_nl]
      exact hp
  refine ⟨s.handleMsg X e, ?_, rfl⟩
  rw [next_of_boundary s [] hsb]
  simp [SSEClient.emit, hparse]

lemma run_of_next {n : Nat} {s s2 : SSEClient} {sc sc2 : List Step} {r : Except Str Event}
    {acts : List Act} (h : SSEClient.next s sc = some (r, s2, sc2, acts)) :
    (SSEClient.run (n + 1) s sc).1 = r :: (SSEClient.run n s2 sc2).1 := by
  rw [run_succ, h]

lemma run_stuck {s : SSEClient} (h : SSEClient.next s [] = none) (n : Nat) :
    (SSEClient.run n s []).1 = [] := by
  cases n with
  | zero => rfl
  | succ n => rw [run_succ, h]

/-- C7: three well-formed messages separated by one or two blank lines
each (two or three `\n` characters) yield exactly three events — extra
blank lines produce no spurious empty message, and after the third
event the reader blocks for more input no matter how often it is
pulled. -/
theorem c7_no_spurious (m1 m2 m3 : Str) (k1 k2 k3 : Nat) (e1 e2 e3 : Event)
    (h1 : isMsgText m1) (h2 : isMsgText m2) (h3 : isMsgText m3)
    (hk1 : k1 = 2 ∨ k1 = 3) (hk2 : k2 = 2 ∨ k2 = 3) (hk3 : k3 = 2 ∨ k3 = 3)
    (hpa1 : Event.parse m1 = .ok e1) (hpa2 : Event.parse m2 = .ok e2)
    (hpa3 : Event.parse m3 = .ok e3) (n : Nat) (li : Option Str) (r0 : Int) :
    (SSEClient.run (n + 3) ⟨[], li, r0⟩
      [.chunk (m1 ++ List.replicate k1 '\n' ++ m2 ++ List.replicate k2 '\n'
        ++ m3 ++ List.replicate k3 '\n')]).1 = [.ok e1, .ok e2, .ok e3] := by
  have hdec : ∀ k : Nat, k = 2 ∨ k = 3 → ∃ pre : Str, (pre = [] ∨ pre = ['\n']) ∧
      List.replicate k '\n' = ['\n', '\n'] ++ pre := by
    rintro k (rfl | rfl)
    · exact ⟨[], Or.inl rfl, by decide⟩
    · exact ⟨['\n'], Or.inr rfl, by decide⟩
  obtain ⟨p1, hp1', hr1⟩ := hdec k1 hk1
  obtain ⟨p2, hp2', hr2⟩ := hdec k2 hk2
  obtain ⟨p3, hp3', hr3⟩ := hdec k3 hk3
  have hstr : m1 ++ List.replicate k1 '\n' ++ m2 ++ List.replicate k2 '\n'
      ++ m3 ++ List.replicate k3 '\n' =
      m1 ++ '\n' :: '\n' :: (p1 ++ m2 ++ '\n' :: '\n' :: (p2 ++ m3 ++ '\n' :: '\n' :: p3)) := by
    rw [hr1, hr2, hr3]
    simp [List.append_assoc]
  have hne : m1 ++ List.replicate k1 '\n' ++ m2 ++ List.replicate k2 '\n'
      ++ m3 ++ List.replicate k3 '\n' ≠ [] := by
    intro hcon
    apply h1.1
    cases m1 with
    | nil => rfl
    | cons a b => simp at hcon
  have hn0 : SSEClient.next ⟨[], li, r0⟩
      [.chunk (m1 ++ List.replicate k1 '\n' ++ m2 ++ List.replicate k2 '\n'
        ++ m3 ++ List.replicate k3 '\n')] =
      SSEClient.next ⟨m1 ++ List.replicate k1 '\n' ++ m2 ++ List.replicate k2 '\n'
        ++ m3 ++ List.replicate k3 '\n', li, r0⟩ [] := by
    rw [next_cons_chunk ⟨[], li, r0⟩ [] rfl hne]
    rfl
  obtain ⟨s2, hn1, hb2⟩ := next_msg
    (s := ⟨m1 ++ List.replicate k1 '\n' ++ m2 ++ List.replicate k2 '\n'
      ++ m3 ++ List.replicate k3 '\n', li, r0⟩)
    (w := []) (m := m1)
    (X := p1 ++ m2 ++ '\n' :: '\n' :: (p2 ++ m3 ++ '\n' :: '\n' :: p3))
    (by simpa using hstr) (Or.inl rfl) h1 hpa1
  obtain ⟨s3, hn2, hb3⟩ := next_msg (s := s2) (w := p1) (m := m2)
    (X := p2 ++ m3 ++ '\n' :: '\n' :: p3) (by rw [hb2]) hp1' h2 hpa2
  obtain ⟨s4, hn3, hb4⟩ := next_msg (s := s3) (w := p2) (m := m3)
    (X := p3) (by rw [hb3]) hp2' h3 hpa3
  have hstuck : SSEClient.next s4 [] = none := by
    apply next_nil_none
    rw [hb4]
    rcases hp3' with rfl | rfl
    · rfl
    · decide
  rw [show n + 3 = (n + 2) + 1 from rfl, run_of_next (hn0.trans hn1)]
  rw [show n + 2 = (n + 1) + 1 from rfl, run_of_next hn2]
  rw [run_of_next hn3]
  rw [run_stuck hstuck n]

/-- Witness for `c7_no_spurious`: `"data: 1"`, `"data: 2"`, `"data: 3"`
separated by one, two and one blank lines yield exactly the three
corresponding events. -/
theorem c7_no_spurious_witness :
    (SSEClient.run (0 + 3) ⟨[], none, 3000⟩
      [.chunk ("data: 1".data ++ List.replicate 2 '\n' ++ "data: 2".data
        ++ List.replicate 3 '\n' ++ "data: 3".data ++ List.replicate 2 '\n')]).1 =
      [.ok ⟨"1".data, "message".data, none, none⟩,
       .ok ⟨"2".data, "message".data, none, none⟩,
       .ok ⟨"3".data, "message".data, none, none⟩] :=
  c7_no_spurious "data: 1".data "data: 2".data "data: 3".data 2 3 2 _ _ _
    ⟨by decide, ⟨by decide, by simp [List.chain'_cons]⟩, by decide, by decide⟩
    ⟨by decide, ⟨by decide, by simp [List.chain'_cons]⟩, by decide, by decide⟩
    ⟨by decide, ⟨by decide, by simp [List.chain'_cons]⟩, by decide, by decide⟩
    (Or.inl rfl) (Or.inr rfl) (Or.inl rfl)
    (by decide) (by decide) (by decide) 0 none 3000

/-! ### The line pattern matches every line (C10) -/

lemma RMatches_star_all {p : Char → Bool} : ∀ {s : Str}, (∀ c ∈ s, p c = true) →
    RMatches (.star (.char p)) s := by
  intro s
  induction s with
  | nil => intro _; exact .starNil
  | cons c rest ih =>
    intro h
    have hm : RMatches (.star (.char p)) ([c] ++ rest) :=
      .starCons (.char (h c (by simp))) (ih (fun a ha => h a (by simp [ha])))
    simpa using hm

lemma sse_line_pattern_nullable : RMatches Event.sse_line_pattern [] := by
  have h1 : RMatches (.star (.char (fun c => c != ':'))) [] := .starNil
  have h2 : RMatches (Regex.opt (.char (fun c => c == ':'))) [] := .altR .eps
  have h3 : RMatches (Regex.opt (.seq (Regex.opt (.char (fun c => c == ' ')))
      (.star (.char (fun c => c != '\n'))))) [] := .altR .eps
  have h4 := RMatches.seq h2 h3
  have h5 := RMatches.seq h1 h4
  simpa using h5

lemma dropWhile_head_false {p : Char → Bool} :
    ∀ {l : Str} {c : Char} {rest : Str}, l.dropWhile p = c :: rest → p c = false := by
  intro l
  induction l with
  | nil => intro c rest h; simp at h
  | cons a l2 ih =>
    intro c rest h
    rw [List.dropWhile_cons] at h
    by_cases hp : p a = true
    · rw [hp] at h
      simp only [if_true] at h
      exact ih h
    · rw [Bool.not_eq_true] at hp
      rw [hp] at h
      simp only [Bool.false_eq_true, if_false] at h
      injection h with h1 _
      subst h1
      exact hp

/-- C10: the regular expression `sse_line_pattern` matches (a prefix
of) every string — it is nullable, so `re.match` never returns `None`
and the malformed-line branch of `Event.parse` is unreachable;
moreover on every line produced by `Event.splitlines` it matches the
entire line. -/
theorem c10_line_always_matches :
    (∀ l : Str, ∃ p t, l = p ++ t ∧ RMatches Event.sse_line_pattern p) ∧
    (∀ raw : Str, ∀ l ∈ Event.splitlines raw, RMatches Event.sse_line_pattern l) := by
  constructor
  · intro l
    exact ⟨[], l, rfl, sse_line_pattern_nullable⟩
  · intro raw l hl
    have hmem : l ∈ splitAllNl raw := List.mem_of_mem_filter hl
    have hnoNl : ∀ c ∈ l, c ≠ '\n' ∧ c ≠ '\r' := by
      intro c hc
      have := mem_splitAllNl l hmem c hc
      exact ⟨this.2.1, this.2.2⟩
    have hsplit : l.takeWhile (fun c => c != ':') ++ l.dropWhile (fun c => c != ':') = l :=
      List.takeWhile_append_dropWhile _ l
    have hstar : RMatches (.star (.char (fun c => c != ':')))
        (l.takeWhile (fun c => c != ':')) :=
      RMatches_star_all (fun c hc =>
        List.mem_takeWhile_imp (p := fun c => c != ':') (l := l) hc)
    rcases hdw : l.dropWhile (fun c => c != ':') with _ | ⟨c0, b2⟩
    · have h2 : RMatches (Regex.opt (.char (fun c => c == ':'))) [] := .altR .eps
      have h3 : RMatches (Regex.opt (.seq (Regex.opt (.char (fun c => c == ' ')))
          (.star (.char (fun c => c != '\n'))))) [] := .altR .eps
      have h5 := RMatches.seq hstar (RMatches.seq h2 h3)
      rw [hdw] at hsplit
      simpa [hsplit] using h5
    · have hc0 : c0 = ':' := by
        have := dropWhile_head_false hdw
        simpa using this
      subst hc0
      have h2 : RMatches (Regex.opt (.char (fun c => c == ':'))) [':'] :=
        .altL (.char (by decide))
      have hdot : RMatches (.star (.char (fun c => c != '\n'))) b2 := by
        apply RMatches_star_all
        intro c hc
        have hcl : c ∈ l := by
          have hsub : c ∈ l.dropWhile (fun c => c != ':') := by
            rw [hdw]; simp [hc]
          exact List.dropWhile_subset _ hsub
        simpa using (hnoNl c hcl).1
      have h3 : RMatches (Regex.opt (.seq (Regex.opt (.char (fun c => c == ' ')))
          (.star (.char (fun c => c != '\n'))))) b2 := by
        have := RMatches.seq (RMatches.altR RMatches.eps :
          RMatches (Regex.opt (.char (fun c => c == ' '))) []) hdot
        exact .altL (by simpa using this)
      rw [hdw] at hsplit
      rw [show Event.sse_line_pattern = .seq (.star (.char (fun c => c != ':')))
        (.seq (Regex.opt (.char (fun c => c == ':')))
          (Regex.opt (.seq (Regex.opt (.char (fun c => c == ' ')))
            (.star (.char (fun c => c != '\n')))))) from rfl]
      rw [← hsplit]
      exact RMatches.seq hstar (RMatches.seq h2 h3)

/-- Witness for `c10_line_always_matches` on the line `"data: x"`. -/
theorem c10_line_always_matches_witness :
    RMatches Event.sse_line_pattern "data: x".data :=
  c10_line_always_matches.2 "data: x".data "data: x".data (by decide)
